import Mathlib

/-!
Shallow embedding of the trackertools time-tracking assistant
(`tools.py`, `alias.py`, `task.py`, `entry.py`, `tokens.py`, `command.py`,
`app.py`) and proofs about its data model, mutation operations, token
matchers and command dispatcher.

Modelling conventions:
* Python `str` is modelled as `List Char` in the parsing layer (Python
  strings are sequences of code points) and as `String` for stored entry
  fields; `String` equality and order agree with Python code-point
  comparison.
* `datetime.date` is modelled as its proleptic-Gregorian ordinal
  (`date.toordinal()`, an `Int`; ordinal 1 = 0001-01-01, a Monday).
* `datetime.datetime` is modelled as `Int` seconds, equal to
  `ordinal * 86400 + seconds-into-day`, so `dt.date()` is `fdiv 86400`.
* `datetime.timedelta` is modelled as `Int` seconds.
* The process-wide registry `Entry.all` (a dict keyed by alias) is
  modelled as a `List Entry` with the alias stored in each entry;
  mutating handlers become functions from registry to registry.
* Fallible operations return `Except Err _`; raising `AppError`
  or `ParseError` is modelled as returning `.error _`.
-/

set_option maxRecDepth 100000

namespace Trackertools

/-- Decimal digit character, indexing Python's digit characters. -/
def digitChar (d : Nat) : Char := Char.ofNat (48 + d)

/-- Fuel-carrying worker for `natToChars`; any fuel above the number itself
is enough, so the fuel is an implementation artifact only. -/
def natToCharsAux : Nat → Nat → List Char
  | 0, _ => []
  | fuel + 1, n =>
      if n < 10 then [digitChar n]
      else natToCharsAux fuel (n / 10) ++ [digitChar (n % 10)]

/-- Decimal representation of a natural number (Python `str(n)` for `n ≥ 0`). -/
def natToChars (n : Nat) : List Char := natToCharsAux (n + 1) n

/-- Value of a list of decimal digit characters (Python `int(s)` for digit strings). -/
def charsToNat (l : List Char) : Nat :=
  l.foldl (fun a c => 10 * a + (c.toNat - 48)) 0

/-- Python `sep.flatten(parts)`. -/
def joinWith (sep : List Char) : List (List Char) → List Char
  | [] => []
  | [p] => p
  | p :: rest => p ++ sep ++ joinWith sep rest

/-- Worker for `pySplit`: scan the string, cutting at each occurrence of the
separator. -/
def pySplitGo (sep : List Char) : List Char → List Char → List (List Char) → List (List Char)
  | [], acc, out => (acc.reverse :: out).reverse
  | c :: rest, acc, out =>
      if sep.isPrefixOf (c :: rest) then
        pySplitGo sep (rest.drop (sep.length - 1)) [] (acc.reverse :: out)
      else
        pySplitGo sep rest (c :: acc) out
termination_by l _ _ => l.length
decreasing_by
  all_goals simp only [List.length_drop, List.length_cons]
  all_goals omega

/-- Python `s.split(sep)` for a non-empty separator: split on every occurrence. -/
def pySplit (sep : List Char) (s : List Char) : List (List Char) :=
  pySplitGo sep s [] []

/-! ## tools.py -/

/-- Convert seconds to a string of hour-minute format `"#h #m"`
(`tools.seconds_to_duration`): zero yields `"0m"`, zero components are
omitted, a negative total is prefixed with `"-"`. -/
def seconds_to_duration (total_seconds : Int) : List Char :=
  if total_seconds = 0 then ['0', 'm']
  else
    let minutes : Nat := total_seconds.natAbs / 60
    let hours : Nat := minutes / 60
    let mins : Nat := minutes % 60
    let components : List (List Char) :=
      (if hours ≠ 0 then [natToChars hours ++ ['h']] else []) ++
      (if mins ≠ 0 then [natToChars mins ++ ['m']] else [])
    let s := joinWith [' '] components
    if total_seconds < 0 then '-' :: s else s

/-- Convert a timedelta (seconds) to the `"#h #m"` duration string
(`tools.timespan_to_duration`). -/
def timespan_to_duration (timespan : Int) : List Char :=
  seconds_to_duration timespan

/-! ## alias.py -/

/-- Uppercase ASCII letter with the given index into Python's uppercase
alphabet string. -/
def uppercaseChar (i : Nat) : Char := Char.ofNat (65 + i)

/-- Generate a two-letter alias from a numeric seed (`Alias.gen`):
`letters` is the base-26 partition of the seed (least-significant first),
joined as uppercase characters, so the first character encodes `seed % 26`
and the second `(seed / 26) % 26`. -/
def Alias.gen (seed : Nat) : String :=
  String.mk [uppercaseChar (seed % 26), uppercaseChar (seed / 26 % 26)]

/-- All 676 two-uppercase-letter alias values (every slot of the constrained
two-character alphabet), enumerated through `Alias.gen`. -/
def allAliases : List String := (List.range 676).map Alias.gen

/-! ## task.py -/

/-- A task: a node of the work-category tree (`task.Task`). The parent is a
weak reference by id. -/
structure Task where
  id : Nat
  parent : Option Nat
  name : String
  jira : Option String
  spec : Option String
deriving DecidableEq, Repr

/-- Task equality is by identifier only, following the source's equality
method on tasks. -/
instance : BEq Task := ⟨fun a b => a.id = b.id⟩

/-! ## entry.py: data model -/

/-- One time-tracked interval (`entry.Entry`). `start` and `end_` are
datetimes in seconds; `end_` models the Python attribute `end` (a Lean
keyword). -/
structure Entry where
  id : Nat
  task : Task
  start : Int
  end_ : Int
  text : String
  markup : Option String := none
  worklog_id : Nat := 0
  alias_ : String := ""
deriving DecidableEq, Repr

instance : Inhabited Entry :=
  ⟨{ id := 0, task := ⟨0, none, "", none, none⟩, start := 0, end_ := 0, text := "" }⟩

/-- Date part of the entry's start (`Entry.day`, i.e. `start.date()`). -/
def Entry.day (e : Entry) : Int := e.start.fdiv 86400

/-- Duration of the entry (`Entry.span`, `end` minus `start`), in seconds. -/
def Entry.span (e : Entry) : Int := e.end_ - e.start

/-- Grouping key used by combine (`Entry._grouping_order_`): the triple of
the entry's start date, task id and description text. -/
def grouping_order (e : Entry) : Int × Nat × String := (e.day, e.task.id, e.text)

/-- Look up an entry by alias in the registry (`Entry.all[alias]`). -/
def find_entry (reg : List Entry) (a : String) : Option Entry :=
  reg.find? (fun e => e.alias_ = a)

/-- Store a (mutated) entry back under its alias: models in-place mutation of
the object held in `Entry.all`. -/
def update_entry (reg : List Entry) (a : String) (e : Entry) : List Entry :=
  reg.map (fun x => if x.alias_ = a then e else x)

/-- Remove the entry with the given alias from the registry (`Entry.delete`,
which deletes `self.alias` from `Entry.all`). -/
def delete_entry (reg : List Entry) (a : String) : List Entry :=
  reg.filter (fun e => ¬ e.alias_ = a)

/-- Probe loop of `Entry.gen_id`: try `reference.id + i`, then `+ i + 1`, …
until an id unused by the registry is found. The Python loop is unbounded
(`itertools.count`); the embedding carries explicit fuel, and
`gen_id` below supplies enough fuel for the search to always succeed. -/
def gen_id_aux (ids : List Nat) (ref : Nat) : Nat → Nat → Nat
  | 0, _ => ref
  | fuel + 1, i => if (ref + i) ∈ ids then gen_id_aux ids ref fuel (i + 1) else ref + i

/-- Derive a fresh entry id from a reference entry (`Entry.gen_id`): probe
successive increments of `reference.id` until one is unused among
`Entry.all.values()`. `reg.length + 1` probes always suffice. -/
def Entry.gen_id (reg : List Entry) (reference : Entry) : Nat :=
  gen_id_aux (reg.map Entry.id) reference.id (reg.length + 1) 1

/-- Alias-generation loop of `Entry._gen_alias_`: generate from the seed and
regenerate with an incremented seed on collision. The Python recursion is
unbounded; the embedding carries explicit fuel (`none` models
non-termination), and 676 probes suffice whenever a slot is free. -/
def gen_alias_fuel (occupied : List String) (seed : Nat) : Nat → Option String
  | 0 => none
  | fuel + 1 =>
      let a := Alias.gen seed
      if a ∈ occupied then gen_alias_fuel occupied (seed + 1) fuel else some a

/-- Alias for a newly created entry, seeded from its id (`Entry._gen_alias_`
as invoked on entry construction). -/
def gen_alias (occupied : List String) (seed : Nat) : String :=
  (gen_alias_fuel occupied seed 676).getD ""

/-! ## entry.py: combine -/

/-- Lexicographic code-point comparison of character lists: Python string
comparison. -/
def lexLe : List Char → List Char → Bool
  | [], _ => true
  | _ :: _, [] => false
  | a :: as, b :: bs => if a < b then true else if a = b then lexLe as bs else false

/-- Python string comparison, on the underlying code points. -/
def strLe (a b : String) : Bool := lexLe a.data b.data

/-- Boolean lexicographic comparison of grouping keys; Python compares the
key tuples component-lexicographically, strings by code points. -/
def keyLe (a b : Entry) : Bool :=
  let k₁ := grouping_order a
  let k₂ := grouping_order b
  decide (k₁.1 < k₂.1) ||
    (decide (k₁.1 = k₂.1) && (decide (k₁.2.1 < k₂.2.1) ||
      (decide (k₁.2.1 = k₂.2.1) && strLe k₁.2.2 k₂.2.2)))

/-- Comparison by start time, used to sort each group's fragments. -/
def startLe (a b : Entry) : Bool := decide (a.start ≤ b.start)

/-- Stable insertion used by `pysorted`: the new element passes every element
that compares less-or-equal to it, so elements with equal keys keep their
original relative order. -/
def pyInsert {α : Type} (le : α → α → Bool) (x : α) : List α → List α
  | [] => [x]
  | y :: ys => if le y x then y :: pyInsert le x ys else x :: y :: ys

/-- Python `sorted(l, key=...)`: a stable sort with respect to the total
preorder `le` induced by the key. Any stable sorting algorithm is a faithful
model of Python's specified stable-sort semantics. -/
def pysorted {α : Type} (le : α → α → Bool) (l : List α) : List α :=
  l.foldl (fun acc x => pyInsert le x acc) []

/-- Adjacent grouping by key equality (`itertools.groupby` applied to a list
already sorted by the same key): `pygroupbyGo k cur acc rest` extends the
current group `acc` (whose key is `k cur`) while keys stay equal and starts a
new group when the key changes. -/
def pygroupbyGo {α K : Type} [DecidableEq K] (k : α → K) :
    α → List α → List α → List (List α)
  | _, acc, [] => [acc]
  | cur, acc, b :: rest =>
      if k b = k cur then pygroupbyGo k cur (acc ++ [b]) rest
      else acc :: pygroupbyGo k b [b] rest

/-- Adjacent grouping by key equality, as `itertools.groupby` with a key
function behaves on a key-sorted list. -/
def pygroupby {α K : Type} [DecidableEq K] (k : α → K) : List α → List (List α)
  | [] => []
  | a :: rest => pygroupbyGo k a [a] rest

/-- Fold one group of same-key entries (loop body of `Entry.combine`):
sort the fragments by start time, keep the first and extend its end by the
group's total duration. Groups produced by `pygroupby` are never empty; the
empty case is unreachable. -/
def combineGroup (g : List Entry) : Entry :=
  let fragments := pysorted startLe g
  let total_duration : Int := (fragments.map Entry.span).sum
  match fragments with
  | [] => default
  | composite :: _ => { composite with end_ := composite.start + total_duration }

/-- Merge all same-day same-task same-text entries into one (`Entry.combine`):
sort by the grouping key, group adjacent equal keys, fold every group into
its earliest-starting member, and count the deleted entries. Returns the
surviving composite entries and the deleted count. -/
def Entry.combine (entries : List Entry) : List Entry × Nat :=
  let sorted_entries := pysorted keyLe entries
  let groups := pygroupby grouping_order sorted_entries
  (groups.map combineGroup, (groups.map (fun g => g.length - 1)).sum)

/-- Date-ranged combine (`Entry.combine_for`): pre-filter to entries whose
start date lies within the closed range, then combine. -/
def Entry.combine_for (reg : List Entry) (since until_ : Int) : List Entry × Nat :=
  Entry.combine (reg.filter (fun e => since ≤ e.day ∧ e.day ≤ until_))

/-! ## command.py: error taxonomy and entry-mutating handlers -/

/-- Application and parse errors raised by handlers and token evaluation
(`tools.AppError`, `tokens.ParseError`). -/
inductive Err where
  | differentTasks : Err
  | cannotDetach : Err
  | cannotDecrease : Err
  | cannotContract : Err
  | noSuchEntry : Err
  | unknownTask : Err
  | invalidMonthDay : Err
  | invalidDate : Err
  | invalidTime : Err
  | unknownFormat : Err
deriving DecidableEq, Repr

/-- Fuse the donor entry into the acceptor entry (`command.fuse_entry_right`):
reject different tasks; otherwise set the acceptor's start to the earlier
start, its end to that new start plus the combined span, and delete the
donor from the registry. -/
def fuse_entry_right (reg : List Entry) (donorAlias acceptorAlias : String) :
    Except Err (List Entry) :=
  match find_entry reg donorAlias, find_entry reg acceptorAlias with
  | some donor, some acceptor =>
      if ¬ (donor.task == acceptor.task) then .error .differentTasks
      else
        let total_span := acceptor.span + donor.span
        let newStart := min donor.start acceptor.start
        let acceptor' := { acceptor with start := newStart, end_ := newStart + total_span }
        .ok (delete_entry (update_entry reg acceptorAlias acceptor') donorAlias)
  | _, _ => .error .noSuchEntry

/-- Detach a new entry from the end of a parent entry
(`command.split_entry`): reject a detach duration at least the parent's
span; otherwise create a child covering the final `span` of the parent's
interval, owned by the same task, with the given text (falling back to the
parent's text when empty or `"..."`), an id probed from the parent's id and
a fresh alias, and shrink the parent's end. Returns the updated parent and
the new child. -/
def split_entry (reg : List Entry) (parent : Entry) (span : Int) (text : String) :
    Except Err (Entry × Entry) :=
  if span ≥ parent.span then .error .cannotDetach
  else
    let text' := if text = "" ∨ text = "..." then parent.text else text
    let child : Entry :=
      { id := Entry.gen_id reg parent
        task := parent.task
        start := parent.end_ - span
        end_ := parent.end_
        text := text'
        alias_ := gen_alias (reg.map Entry.alias_) (Entry.gen_id reg parent) }
    .ok ({ parent with end_ := parent.end_ - span }, child)

/-- Set entry duration (`command.set_entry_duration`): end is start plus the
given duration. -/
def set_entry_duration (e : Entry) (duration : Int) : Entry :=
  { e with end_ := e.start + duration }

/-- Increase entry duration (`command.increase_entry_duration`): end grows
by delta. -/
def increase_entry_duration (e : Entry) (delta : Int) : Entry :=
  { e with end_ := e.end_ + delta }

/-- Decrease entry duration (`command.decrease_entry_duration`): reject a
delta at least the current span, else shrink end by delta. -/
def decrease_entry_duration (e : Entry) (delta : Int) : Except Err Entry :=
  if delta ≥ e.span then .error .cannotDecrease
  else .ok { e with end_ := e.end_ - delta }

/-- Expand entry duration from the beginning (`command.expand_entry_duration`):
start moves back by delta. -/
def expand_entry_duration (e : Entry) (delta : Int) : Entry :=
  { e with start := e.start - delta }

/-- Contract entry duration from the beginning
(`command.contract_entry_duration`): reject a delta at least the current
span, else advance start by delta. -/
def contract_entry_duration (e : Entry) (delta : Int) : Except Err Entry :=
  if delta ≥ e.span then .error .cannotContract
  else .ok { e with start := e.start + delta }

/-- Shift entry ahead (`command.shift_entry_ahead`): translate both bounds. -/
def shift_entry_ahead (e : Entry) (delta : Int) : Entry :=
  { e with start := e.start + delta, end_ := e.end_ + delta }

/-- Shift entry behind (`command.shift_entry_behind`): translate both bounds. -/
def shift_entry_behind (e : Entry) (delta : Int) : Entry :=
  { e with start := e.start - delta, end_ := e.end_ - delta }

/-- Set entry start time (`command.set_entry_start_time`): replace the
time-of-day component of `start` keeping the same calendar day, then
recompute end as the new start plus the original span. `start_time` is
seconds into the day. -/
def set_entry_start_time (e : Entry) (start_time : Int) : Entry :=
  let initial_span := e.span
  let start' := e.day * 86400 + start_time
  { e with start := start', end_ := start' + initial_span }

/-! ## tokens.py: calendar helpers

The date arithmetic mirrors Python's `datetime` / `calendar` modules on the
proleptic Gregorian calendar. -/

/-- Python weekday numbering for a date ordinal: Monday is 0, Sunday is 6;
ordinal 1 (0001-01-01) is a Monday. -/
def pyWeekday (ordinal : Int) : Int := (ordinal - 1) % 7

/-- Gregorian leap-year rule (`calendar.isleap`). -/
def isLeapYear (y : Nat) : Bool := (y % 4 == 0 && y % 100 != 0) || y % 400 == 0

/-- Number of days in a month (`calendar.monthrange(y, m)[1]`). -/
def daysInMonth (y m : Nat) : Nat :=
  if m = 2 then (if isLeapYear y then 29 else 28)
  else if m = 4 ∨ m = 6 ∨ m = 9 ∨ m = 11 then 30
  else 31

/-- Days in all years before year `y` (part of `date.toordinal`). -/
def daysBeforeYear (y : Nat) : Nat :=
  365 * (y - 1) + (y - 1) / 4 - (y - 1) / 100 + (y - 1) / 400

/-- Days in all earlier months of the same year (part of `date.toordinal`). -/
def daysBeforeMonth (y m : Nat) : Nat :=
  ((List.range (m - 1)).map (fun i => daysInMonth y (i + 1))).sum

/-- Proleptic-Gregorian ordinal of a calendar date (`date(y, m, d).toordinal()`). -/
def toOrdinal (y m d : Nat) : Int :=
  ((daysBeforeYear y + daysBeforeMonth y m + d : Nat) : Int)

/-- The weekday-name list of the Date token (`Date.weeklist`). -/
def weeklist : List (List Char) :=
  [['m','o','n'], ['t','u','e'], ['w','e','d'], ['t','h','u'],
   ['f','r','i'], ['s','a','t'], ['s','u','n']]

/-- Resolve a weekday name against today (`Date._weekday_to_date_`):
`offset = today.weekday() - weeklist.index(weekday)`, result is `today`
minus `offset` days. -/
def weekday_to_date (today : Int) (weekday : List Char) : Int :=
  today - (pyWeekday today - (weeklist.indexOf weekday : Nat))

/-- Monday of the current week (`Week._get_monday_`). -/
def get_monday (today : Int) : Int := today - pyWeekday today

/-- Monday-to-Friday pair for a week (`Week.get_work_week`). -/
def get_work_week (monday : Int) : Int × Int := (monday, monday + 4)

/-! ## tokens.py: token matchers

Each token type owns an ordered list of regex alternatives, tried in
declaration order, anchored at the current position. The regexes are simple
enough to be compiled by hand into deterministic matchers over the remaining
suffix of the line; `text` is the full match and `groups` the captured
groups. -/

/-- Kinds of token (the `Token` subclasses of `tokens.py` used by commands). -/
inductive TokenKind where
  | get | node | date | week | time | span | jiraID | text | toggle | quit | timeList
deriving DecidableEq, Repr

/-- Result of a successful token parse: the alternative name, the matched
text and the captured groups. The match ends `text.length` characters past
the current position. -/
structure RMatch where
  format : String
  text : List Char
  groups : List (List Char)
deriving DecidableEq, Repr

/-- Match an exact count of decimal digits. -/
def exactDigits : Nat → List Char → Option (List Char × List Char)
  | 0, l => some ([], l)
  | _ + 1, [] => none
  | n + 1, c :: rest =>
      if c.isDigit then (exactDigits n rest).map (fun p => (c :: p.1, p.2)) else none

/-- Match a maximal non-empty run of decimal digits (greedy `\d+`). -/
def digitsRun (l : List Char) : Option (List Char × List Char) :=
  let ds := l.takeWhile Char.isDigit
  if ds.isEmpty then none else some (ds, l.drop ds.length)

/-- Match a literal string at the current position. -/
def litHere (pat : List Char) (l : List Char) : Option (List Char) :=
  if pat.isPrefixOf l then some (l.drop pat.length) else none

/-- Try literal alternatives in order; each alternative carries its format
name (one `genspec` entry per alternative). -/
def firstLitSpec (alts : List (String × List Char)) (l : List Char) : Option RMatch :=
  match alts with
  | [] => none
  | (name, pat) :: rest =>
      match litHere pat l with
      | some _ => some ⟨name, pat, []⟩
      | none => firstLitSpec rest l

/-- Try literal alternatives of a single regex alternation (`a|b|…`) in
order, returning the matched text. -/
def firstAlt (alts : List (List Char)) (l : List Char) : Option (List Char) :=
  match alts with
  | [] => none
  | pat :: rest =>
      match litHere pat l with
      | some _ => some pat
      | none => firstAlt rest l

/-- Get token (`get|load|fetch`, one named alternative each). -/
def parseGet (l : List Char) : Option RMatch :=
  firstLitSpec [("get", ['g','e','t']), ("load", ['l','o','a','d']),
    ("fetch", ['f','e','t','c','h'])] l

/-- Node token: a two-letter alias, `[A-Za-z]` twice. -/
def parseNode (l : List Char) : Option RMatch :=
  match l with
  | a :: b :: _ =>
      if a.isAlpha && b.isAlpha then some ⟨"alias", [a, b], []⟩ else none
  | _ => none

/-- ISO-date alternative of the Date token: four digits, dash, two digits,
dash, two digits. -/
def parseISODate (l : List Char) : Option RMatch :=
  match exactDigits 4 l with
  | none => none
  | some (y, r₁) =>
      match r₁ with
      | '-' :: r₂ =>
          match exactDigits 2 r₂ with
          | none => none
          | some (mo, r₃) =>
              match r₃ with
              | '-' :: r₄ =>
                  match exactDigits 2 r₄ with
                  | none => none
                  | some (d, _) => some ⟨"date", y ++ '-' :: mo ++ '-' :: d, []⟩
              | _ => none
      | _ => none

/-- Day-of-month alternative of the Date token: one or two digits (greedy). -/
def parseMonthday (l : List Char) : Option RMatch :=
  match l with
  | a :: rest =>
      if a.isDigit then
        match rest with
        | b :: _ => if b.isDigit then some ⟨"day", [a, b], []⟩ else some ⟨"day", [a], []⟩
        | [] => some ⟨"day", [a], []⟩
      else none
  | [] => none

/-- Weekday-name alternation of the Date token, in `weeklist` order. -/
def parseWeekdayName (l : List Char) : Option (List Char) := firstAlt weeklist l

/-- Date token: alternatives tried in declaration order — ISO date, bare day
of month, `today`, `yesterday`, weekday name, `last <weekday>`. -/
def parseDate (l : List Char) : Option RMatch :=
  match parseISODate l with
  | some m => some m
  | none =>
  match parseMonthday l with
  | some m => some m
  | none =>
  match litHere ['t','o','d','a','y'] l with
  | some _ => some ⟨"today", ['t','o','d','a','y'], []⟩
  | none =>
  match litHere ['y','e','s','t','e','r','d','a','y'] l with
  | some _ => some ⟨"yesterday", ['y','e','s','t','e','r','d','a','y'], []⟩
  | none =>
  match parseWeekdayName l with
  | some wd => some ⟨"week", wd, [wd]⟩
  | none =>
  match l with
  | 'l' :: 'a' :: 's' :: 't' :: sep :: rest =>
      if sep = '-' ∨ sep = ' ' then
        match parseWeekdayName rest with
        | some wd => some ⟨"lastweek", ['l','a','s','t', sep] ++ wd, [wd]⟩
        | none => none
      else none
  | _ => none

/-- Week token: alternatives in declaration order — `week[- ]N` (capturing
the count), bare `week`, `last[- ]week`. -/
def parseWeek (l : List Char) : Option RMatch :=
  match l with
  | 'w' :: 'e' :: 'e' :: 'k' :: sep :: rest =>
      if sep = '-' ∨ sep = ' ' then
        match digitsRun rest with
        | some (ds, _) => some ⟨"week", ['w','e','e','k', sep] ++ ds, [ds]⟩
        | none => some ⟨"thisweek", ['w','e','e','k'], []⟩
      else some ⟨"thisweek", ['w','e','e','k'], []⟩
  | 'w' :: 'e' :: 'e' :: 'k' :: [] => some ⟨"thisweek", ['w','e','e','k'], []⟩
  | 'l' :: 'a' :: 's' :: 't' :: sep :: 'w' :: 'e' :: 'e' :: 'k' :: _ =>
      if sep = '-' ∨ sep = ' ' then
        some ⟨"lastweek", ['l','a','s','t', sep, 'w','e','e','k'], []⟩
      else none
  | _ => none

/-- Time token: one or two digits, a colon, exactly two digits (the longer
digit count is tried first, as the regex engine does). -/
def parseTime (l : List Char) : Option RMatch :=
  match l with
  | a :: b :: ':' :: c :: d :: _ =>
      if a.isDigit && b.isDigit && c.isDigit && d.isDigit then
        some ⟨"time", [a, b, ':', c, d], []⟩
      else none
  | a :: ':' :: c :: d :: _ =>
      if a.isDigit && c.isDigit && d.isDigit then some ⟨"time", [a, ':', c, d], []⟩
      else none
  | _ => none

/-- Hour-and-minute alternative of the Span token: digits, `h`, an optional
dash or space, digits, `m`. If the optional separator is taken but no
digits-plus-`m` follow, the regex backtracks to the no-separator branch,
which then fails on the separator character; so the separator, when present,
must be followed by the minutes part. -/
def parseHourMin (l : List Char) : Option RMatch :=
  match digitsRun l with
  | none => none
  | some (hs, r₁) =>
      match r₁ with
      | 'h' :: r₂ =>
          match r₂ with
          | sep :: r₃ =>
              if sep = '-' ∨ sep = ' ' then
                match digitsRun r₃ with
                | some (ms, r₄) =>
                    match r₄ with
                    | 'm' :: _ => some ⟨"hourmin", hs ++ 'h' :: sep :: ms ++ ['m'], [hs, ms]⟩
                    | _ => none
                | none => none
              else
                match digitsRun r₂ with
                | some (ms, r₄) =>
                    match r₄ with
                    | 'm' :: _ => some ⟨"hourmin", hs ++ 'h' :: ms ++ ['m'], [hs, ms]⟩
                    | _ => none
                | none => none
          | [] => none
      | _ => none

/-- Digits followed by a required suffix character (the `(\d+)d`, `(\d+)h`,
`(\d+)m` alternatives). -/
def parseDigitsSuffix (name : String) (suffix : Char) (l : List Char) : Option RMatch :=
  match digitsRun l with
  | none => none
  | some (ds, r) =>
      match r with
      | c :: _ => if c = suffix then some ⟨name, ds ++ [c], [ds]⟩ else none
      | [] => none

/-- Span token: alternatives in declaration order — days, hours-and-minutes,
hours, minutes, bare number (minutes). -/
def parseSpan (l : List Char) : Option RMatch :=
  match parseDigitsSuffix "days" 'd' l with
  | some m => some m
  | none =>
  match parseHourMin l with
  | some m => some m
  | none =>
  match parseDigitsSuffix "hours" 'h' l with
  | some m => some m
  | none =>
  match parseDigitsSuffix "minutes" 'm' l with
  | some m => some m
  | none =>
  match digitsRun l with
  | some (ds, _) => some ⟨"number", ds, [ds]⟩
  | none => none

/-- JiraID token: a run of `[A-Z0-9]`, a dash, a run of digits; the whole
match is also the single captured group. -/
def parseJiraID (l : List Char) : Option RMatch :=
  let run := l.takeWhile (fun c => c.isUpper || c.isDigit)
  if run.isEmpty then none
  else
    match l.drop run.length with
    | '-' :: r₂ =>
        match digitsRun r₂ with
        | some (ds, _) =>
            some ⟨"taskname", run ++ '-' :: ds, [run ++ '-' :: ds]⟩
        | none => none
    | _ => none

/-- Text token: matches the remainder of the line verbatim (`.*`; input
lines contain no newline). -/
def parseText (l : List Char) : Option RMatch := some ⟨"text", l, []⟩

/-- Toggle token: the truthy alternation, then the falsy alternation, each
alternation tried left to right. -/
def parseToggle (l : List Char) : Option RMatch :=
  match firstAlt [['1'], ['O','N'], ['Y','E','S'], ['Y'], ['T','R','U','E']] l with
  | some t => some ⟨"on", t, []⟩
  | none =>
  match firstAlt [['0'], ['O','F','F'], ['N','O'], ['N'], ['F','A','L','S','E']] l with
  | some t => some ⟨"off", t, []⟩
  | none => none

/-- Quit token (`x|q|exit|quit`, alternatives in regex order; its format spec
is named `get` in the source). -/
def parseQuit (l : List Char) : Option RMatch :=
  match firstAlt [['x'], ['q'], ['e','x','i','t'], ['q','u','i','t']] l with
  | some t => some ⟨"get", t, []⟩
  | none => none

/-- One item of the TimeList token: digits with an optional colon-digits
part, or a dash. -/
def timeListItem (l : List Char) : Option (List Char × List Char) :=
  match digitsRun l with
  | some (ds, r₁) =>
      match r₁ with
      | ':' :: r₂ =>
          match digitsRun r₂ with
          | some (ms, r₃) => some (ds ++ ':' :: ms, r₃)
          | none => some (ds, r₁)
      | _ => some (ds, r₁)
  | none =>
      match l with
      | '-' :: r => some (['-'], r)
      | _ => none

/-- Greedy repetition of TimeList items, each optionally followed by a
comma-space; the fuel is an implementation artifact (each iteration consumes
at least one character, so the input length bounds the iteration count). -/
def timeListGo : Nat → List Char → Option (List Char × List Char)
  | 0, _ => none
  | fuel + 1, l =>
      match timeListItem l with
      | none => none
      | some (item, r₁) =>
          let (item₂, r₂) :=
            match litHere [',', ' '] r₁ with
            | some r => (item ++ [',', ' '], r)
            | none => (item, r₁)
          match timeListGo fuel r₂ with
          | some (more, r₃) => some (item₂ ++ more, r₃)
          | none => some (item₂, r₂)

/-- TimeList token: a comma-separated sequence of `H`, `H:MM`, or `-`. -/
def parseTimeList (l : List Char) : Option RMatch :=
  match timeListGo (l.length + 1) l with
  | some (t, _) => some ⟨"list", t, []⟩
  | none => none

/-- Attempt to parse one token of the given kind at the start of the given
suffix of the input line (`Token.parse` anchored at the marker). -/
def tokenParse : TokenKind → List Char → Option RMatch
  | .get, l => parseGet l
  | .node, l => parseNode l
  | .date, l => parseDate l
  | .week, l => parseWeek l
  | .time, l => parseTime l
  | .span, l => parseSpan l
  | .jiraID, l => parseJiraID l
  | .text, l => parseText l
  | .toggle, l => parseToggle l
  | .quit, l => parseQuit l
  | .timeList, l => parseTimeList l

/-! ## tokens.py: token evaluation -/

/-- Typed values produced by token evaluation and passed to handlers. -/
inductive Value where
  | str : List Char → Value
  | vdate : Int → Value
  | vtime : Int → Value
  | vspan : Int → Value
  | ventry : Entry → Value
  | vtask : Task → Value
  | vbool : Bool → Value
  | vtimes : List (Option Int) → Value
deriving DecidableEq, Repr

/-- Ambient state consulted during token evaluation: the live entry registry,
the registered tasks, and today's date (`tools.TODAY`) as ordinal plus
calendar components. -/
structure Env where
  entries : List Entry
  tasks : List Task
  todayOrdinal : Int
  todayYear : Nat
  todayMonth : Nat
  todayDay : Nat
deriving Repr

/-- Evaluate a Node token (`Node.evaluate`): uppercase the alias and resolve
it against the live entry collection. -/
def nodeEvaluate (env : Env) (m : RMatch) : Except Err Value :=
  let a := String.mk (m.text.map Char.toUpper)
  match find_entry env.entries a with
  | some e => .ok (.ventry e)
  | none => .error .noSuchEntry

/-- Evaluate a Date token (`Date.evaluate`), branching on the matched
alternative. The ISO branch mirrors `strptime(%Y-%m-%d)` and its range
validation; the bare-day branch validates against the current month's day
count and keeps today's year and month. -/
def dateEvaluate (env : Env) (m : RMatch) : Except Err Value :=
  if m.format = "date" then
    match pySplit ['-'] m.text with
    | [ys, ms, ds] =>
        let y := charsToNat ys
        let mo := charsToNat ms
        let d := charsToNat ds
        if 1 ≤ y ∧ y ≤ 9999 ∧ 1 ≤ mo ∧ mo ≤ 12 ∧ 1 ≤ d ∧ d ≤ daysInMonth y mo then
          .ok (.vdate (toOrdinal y mo d))
        else .error .invalidDate
    | _ => .error .invalidDate
  else if m.format = "day" then
    let monthday := charsToNat m.text
    if monthday > daysInMonth env.todayYear env.todayMonth then .error .invalidMonthDay
    else if monthday = 0 then .error .invalidDate
    else .ok (.vdate (env.todayOrdinal - env.todayDay + monthday))
  else if m.format = "today" then .ok (.vdate env.todayOrdinal)
  else if m.format = "yesterday" then .ok (.vdate (env.todayOrdinal - 1))
  else if m.format = "week" then
    match m.groups with
    | [wd] => .ok (.vdate (weekday_to_date env.todayOrdinal wd))
    | _ => .error .unknownFormat
  else if m.format = "lastweek" then
    match m.groups with
    | [wd] => .ok (.vdate (weekday_to_date env.todayOrdinal wd - 7))
    | _ => .error .unknownFormat
  else .error .unknownFormat

/-- Evaluate a Week token (`Week.evaluate`). -/
def weekEvaluate (env : Env) (m : RMatch) : Except Err Value :=
  if m.format = "thisweek" then .ok (.vdate (get_monday env.todayOrdinal))
  else if m.format = "lastweek" then .ok (.vdate (get_monday env.todayOrdinal - 7))
  else if m.format = "week" then
    match m.groups with
    | [ds] => .ok (.vdate (get_monday env.todayOrdinal - 7 * charsToNat ds))
    | _ => .error .unknownFormat
  else .error .unknownFormat

/-- Evaluate a Time token (`Time.evaluate`): `strptime(%H:%M)` with its
range validation, yielding seconds into the day. -/
def timeEvaluate (m : RMatch) : Except Err Value :=
  match pySplit [':'] m.text with
  | [hs, ms] =>
      let h := charsToNat hs
      let mn := charsToNat ms
      if h ≤ 23 ∧ mn ≤ 59 then .ok (.vtime (h * 3600 + mn * 60))
      else .error .invalidTime
  | _ => .error .invalidTime

/-- Evaluate a Span token (`Span.evaluate`), in seconds: days, hours plus
minutes, hours, or minutes (a bare number counts as minutes). -/
def spanEvaluate (m : RMatch) : Except Err Value :=
  if m.format = "days" then
    match m.groups with
    | [ds] => .ok (.vspan (charsToNat ds * 86400))
    | _ => .error .unknownFormat
  else if m.format = "hourmin" then
    match m.groups with
    | [hs, ms] => .ok (.vspan (charsToNat hs * 3600 + charsToNat ms * 60))
    | _ => .error .unknownFormat
  else if m.format = "hours" then
    match m.groups with
    | [ds] => .ok (.vspan (charsToNat ds * 3600))
    | _ => .error .unknownFormat
  else if m.format = "minutes" ∨ m.format = "number" then
    match m.groups with
    | [ds] => .ok (.vspan (charsToNat ds * 60))
    | _ => .error .unknownFormat
  else .error .unknownFormat

/-- Evaluate a JiraID token (`JiraID.evaluate`): linear scan of the
registered tasks for the first one with the captured Jira key. -/
def jiraEvaluate (env : Env) (m : RMatch) : Except Err Value :=
  match m.groups with
  | [g] =>
      match env.tasks.find? (fun t => t.jira = some (String.mk g)) with
      | some t => .ok (.vtask t)
      | none => .error .unknownTask
  | _ => .error .unknownFormat

/-- Evaluate a Toggle token (`Toggle.evaluate`). -/
def toggleEvaluate (m : RMatch) : Except Err Value :=
  if m.format = "on" then .ok (.vbool true)
  else if m.format = "off" then .ok (.vbool false)
  else .error .unknownFormat

/-- Parse one comma-separated TimeList element (`TimeList.parse_time`):
a dash means no target, otherwise hours or hours-colon-minutes, in seconds. -/
def parse_time (s : List Char) : Except Err (Option Int) :=
  if s = ['-'] then .ok none
  else
    match pySplit [':'] s with
    | [hs] => .ok (some ((charsToNat hs : Int) * 3600))
    | [hs, ms] => .ok (some ((charsToNat hs : Int) * 3600 + (charsToNat ms : Int) * 60))
    | _ => .error .invalidTime

/-- Evaluate a TimeList token (`TimeList.evaluate`): split the match on
comma-space, drop empty pieces, and parse each element. -/
def timeListEvaluate (m : RMatch) : Except Err Value :=
  let items := (pySplit [',', ' '] m.text).filter (fun s => ¬ s.isEmpty)
  match items.mapM parse_time with
  | .ok ts => .ok (.vtimes ts)
  | .error e => .error e

/-- Evaluate a matched token (`Token.evaluate`, dispatched by token kind);
Get, Text and Quit use the base implementation returning the matched text. -/
def tokenEvaluate (env : Env) : TokenKind → RMatch → Except Err Value
  | .get, m => .ok (.str m.text)
  | .node, m => nodeEvaluate env m
  | .date, m => dateEvaluate env m
  | .week, m => weekEvaluate env m
  | .time, m => timeEvaluate m
  | .span, m => spanEvaluate m
  | .jiraID, m => jiraEvaluate env m
  | .text, m => .ok (.str m.text)
  | .toggle, m => toggleEvaluate m
  | .quit, m => .ok (.str m.text)
  | .timeList, m => timeListEvaluate m

/-! ## command.py: command grammar and parsing -/

/-- One element of a command pattern: a literal string or a token type. -/
inductive Component where
  | lit : String → Component
  | tok : TokenKind → Component
deriving DecidableEq, Repr

/-- A registered command: the handler name (the dict key of `Command.all`)
and the ordered pattern. Handler bodies are modelled separately as registry
operations; the dispatcher's observable is which handler gets invoked with
which evaluated arguments. -/
structure Command where
  name : String
  pattern : List Component
deriving DecidableEq, Repr

/-- Whitespace skipping between pattern elements: advance the marker past
the leading whitespace of the remaining line (`lstrip`). -/
def skipWs (line : List Char) (marker : Nat) : Nat :=
  marker + ((line.drop marker).takeWhile Char.isWhitespace).length

/-- A whitespace-only line (`command.strip() == ''`). -/
def isBlank (line : List Char) : Bool := (line.dropWhile Char.isWhitespace).isEmpty

/-- Walk a command pattern over the line (`Command.parse` main loop),
maintaining the cursor. A mismatch returns the failure marker; full
consumption returns the matched tokens in pattern order. -/
def parseGo (line : List Char) :
    List Component → Nat → List (TokenKind × RMatch) → Nat ⊕ List (TokenKind × RMatch)
  | [], marker, toks =>
      if ((line.drop marker).dropWhile Char.isWhitespace).isEmpty then .inr toks
      else .inl marker
  | comp :: rest, marker, toks =>
      let marker := skipWs line marker
      match comp with
      | .lit s =>
          if s.data.isPrefixOf (line.drop marker) then
            parseGo line rest (marker + s.data.length) toks
          else .inl marker
      | .tok k =>
          match tokenParse k (line.drop marker) with
          | some m => parseGo line rest (marker + m.text.length) (toks ++ [(k, m)])
          | none => .inl marker

/-- Outcome of trying one command pattern against the line
(`Command.parse`): the blank-line short circuit, a failure marker, an
evaluation error escaping to the dispatcher, or a handler invocation with
the evaluated arguments. -/
inductive CmdOutcome where
  | blank : CmdOutcome
  | failAt : Nat → CmdOutcome
  | errored : Err → CmdOutcome
  | invoked : List Value → CmdOutcome
deriving DecidableEq, Repr

/-- Try one command against the line (`Command.parse`): blank lines
short-circuit to redisplay; otherwise walk the pattern, and on a full match
evaluate every captured token left to right and invoke the handler. -/
def Command.parse (env : Env) (cmd : Command) (line : List Char) : CmdOutcome :=
  if isBlank line then .blank
  else
    match parseGo line cmd.pattern 0 [] with
    | .inl marker => .failAt marker
    | .inr toks =>
        match toks.mapM (fun km => tokenEvaluate env km.1 km.2) with
        | .error e => .errored e
        | .ok args => .invoked args

/-- The registered command table (`Command.all`), in registration order:
the decorator order of `command.py`, keyed by handler name. -/
def commands : List Command :=
  [ ⟨"display_table_recent", [.lit "show"]⟩
  , ⟨"display_table_all", [.lit "show", .lit "all"]⟩
  , ⟨"display_table_for_day", [.lit "show", .tok .date]⟩
  , ⟨"display_table_for_week", [.lit "show", .tok .week]⟩
  , ⟨"display_table_for_period", [.lit "show", .tok .date, .lit "..", .tok .date]⟩
  , ⟨"display_table_for_node", [.lit "show", .tok .node]⟩
  , ⟨"show_tasks", [.lit "tasks"]⟩
  , ⟨"load_data_for_day", [.tok .get, .tok .date]⟩
  , ⟨"load_data_for_week", [.tok .get, .tok .week]⟩
  , ⟨"load_data_for_period", [.tok .get, .tok .date, .lit "..", .tok .date]⟩
  , ⟨"delete_entry", [.lit "del", .tok .node]⟩
  , ⟨"delete_entries_for_day", [.lit "del", .tok .date]⟩
  , ⟨"delete_entries_for_period", [.lit "del", .tok .date, .lit "..", .tok .date]⟩
  , ⟨"delete_personal_entries", [.lit "del", .lit "personal"]⟩
  , ⟨"delete_entries_by_task_name", [.lit "del", .tok .jiraID]⟩
  , ⟨"combine_all_entries", [.lit "combine"]⟩
  , ⟨"combine_entries_for_day", [.lit "combine", .tok .date]⟩
  , ⟨"combine_entries_for_week", [.lit "combine", .tok .week]⟩
  , ⟨"combine_entries_for_period", [.lit "combine", .tok .date, .lit "..", .tok .date]⟩
  , ⟨"fuse_entry_right", [.tok .node, .lit ">>", .tok .node]⟩
  , ⟨"fuse_entry_left", [.tok .node, .lit "<<", .tok .node]⟩
  , ⟨"split_entry", [.tok .node, .lit "|", .tok .span, .lit ":", .tok .text]⟩
  , ⟨"set_entry_duration", [.tok .node, .lit "=", .tok .span]⟩
  , ⟨"increase_entry_duration", [.tok .node, .lit "+", .tok .span]⟩
  , ⟨"decrease_entry_duration", [.tok .node, .lit "-", .tok .span]⟩
  , ⟨"expand_entry_duration", [.tok .node, .lit "<", .tok .span]⟩
  , ⟨"contract_entry_duration", [.tok .node, .lit ">", .tok .span]⟩
  , ⟨"shift_entry_ahead", [.tok .node, .lit ">>", .tok .span]⟩
  , ⟨"shift_entry_behind", [.tok .node, .lit "<<", .tok .span]⟩
  , ⟨"set_entry_start_time", [.tok .node, .lit ":=", .tok .time]⟩
  , ⟨"copy_entry_description", [.tok .node, .lit "->", .tok .node]⟩
  , ⟨"set_entry_task", [.tok .node, .lit "=>", .tok .jiraID]⟩
  , ⟨"set_entry_description", [.tok .node, .lit ":", .tok .text]⟩
  , ⟨"fix_all_entries_description", [.lit "fix"]⟩
  , ⟨"apply_jira_formatting", [.lit "format", .tok .node]⟩
  , ⟨"apply_jira_formatting_for_all", [.lit "format"]⟩
  , ⟨"cache_clear", [.lit "cache", .lit "clear"]⟩
  , ⟨"log_work", [.lit "log", .tok .node]⟩
  , ⟨"log_all", [.lit "log", .lit "all"]⟩
  , ⟨"get_rnd_times_manually", [.lit "rnd", .tok .timeList]⟩
  , ⟨"toggle_auto_display", [.lit "scrollback", .tok .toggle]⟩
  , ⟨"toggle_jira_estimates_display", [.lit "estimates", .tok .toggle]⟩
  , ⟨"show_help", [.lit "help"]⟩
  , ⟨"finish", [.tok .quit]⟩
  ]

/-! ## app.py: dispatcher -/

/-- Outcome of processing one input line (`App.process`): the blank-line
redisplay, a handler invocation, an evaluation error aborting the command,
or the two parse-failure reports. -/
inductive ProcOutcome where
  | redisplay : ProcOutcome
  | handled : String → List Value → ProcOutcome
  | errored : String → Err → ProcOutcome
  | invalidCommand : ProcOutcome
  | invalidSyntax : Nat → ProcOutcome
deriving DecidableEq, Repr

/-- Dispatcher loop (`App.process`): try each registered command in order,
stopping at the first non-failure outcome and otherwise tracking the
maximum failure marker; with no full match, a zero maximum means an
unrecognized command and a positive maximum an invalid-syntax report with a
caret at that column. -/
def processGo (env : Env) (line : List Char) : List Command → Nat → ProcOutcome
  | [], maxParsed => if maxParsed = 0 then .invalidCommand else .invalidSyntax maxParsed
  | c :: rest, maxParsed =>
      match Command.parse env c line with
      | .blank => .redisplay
      | .failAt m => processGo env line rest (max maxParsed m)
      | .errored e => .errored c.name e
      | .invoked args => .handled c.name args

/-- Process one input line against the registered command table
(`App.process`). -/
def App.process (env : Env) (cmds : List Command) (line : List Char) : ProcOutcome :=
  processGo env line cmds 0

/-- A command pattern fully consumes the line (its handler would be reached;
evaluation may still fail): `Command.parse` does not report a failure
marker. -/
def fullMatch (env : Env) (cmd : Command) (line : List Char) : Bool :=
  match Command.parse env cmd line with
  | .failAt _ => false
  | _ => true

/-! ## Concrete fixtures used to instantiate the theorems -/

/-- An evaluation environment with an empty registry; today is
2023-12-25, a Monday (ordinal 738879). -/
def env0 : Env := ⟨[], [], 738879, 2023, 12, 25⟩

/-- A sample task. -/
def task7 : Task := ⟨7, none, "T", none, none⟩

/-- Sample entry covering 09:00–09:30 on day 0 (task 7). -/
def entryA : Entry :=
  { id := 1, task := task7, start := 32400, end_ := 34200, text := "a", alias_ := "AA" }

/-- Sample entry covering 09:45–10:00 on day 0 (task 7). -/
def entryB : Entry :=
  { id := 2, task := task7, start := 35100, end_ := 36000, text := "b", alias_ := "BB" }

/-- Sample same-text entries for the combine example: 09:00, span 10m. -/
def standup1 : Entry :=
  { id := 11, task := task7, start := 32400, end_ := 33000, text := "Standup", alias_ := "SA" }

/-- Second combine-example entry: 10:00, span 5m. -/
def standup2 : Entry :=
  { id := 12, task := task7, start := 36000, end_ := 36300, text := "Standup", alias_ := "SB" }

/-- Third combine-example entry: 09:20, span 15m. -/
def standup3 : Entry :=
  { id := 13, task := task7, start := 33600, end_ := 34500, text := "Standup", alias_ := "SC" }

/-- The entry produced by fusing `entryA` into `entryB`. -/
def fusedAB : Entry :=
  { id := 2, task := task7, start := 32400, end_ := 35100, text := "b", alias_ := "BB" }

end Trackertools

namespace Trackertools

/-! # Theorems

Helper lemmas first, then one theorem per specification claim (with its
witness or counterexample). -/

/-! ## Registry helper lemmas -/

theorem find_entry_delete_self (reg : List Entry) (a : String) :
    find_entry (delete_entry reg a) a = none := by
  unfold find_entry delete_entry
  rw [List.find?_eq_none]
  intro x hx
  rcases List.mem_filter.mp hx with ⟨-, hq⟩
  simpa using hq

theorem find_entry_eq_some_alias {reg : List Entry} {a : String} {e : Entry}
    (h : find_entry reg a = some e) : e.alias_ = a := by
  unfold find_entry at h
  have := List.find?_some h
  simpa using this

theorem find_entry_update_self {reg : List Entry} {a : String} {e : Entry}
    (hfind : find_entry reg a = some e) (e' : Entry) (he' : e'.alias_ = a) :
    find_entry (update_entry reg a e') a = some e' := by
  unfold find_entry update_entry at *
  induction reg with
  | nil => simp at hfind
  | cons x xs ih =>
      by_cases hx : x.alias_ = a
      · rw [List.map_cons, if_pos hx]
        exact List.find?_cons_of_pos _ (by simpa using he')
      · rw [List.map_cons, if_neg hx, List.find?_cons_of_neg _ (by simpa using hx)]
        rw [List.find?_cons_of_neg _ (by simpa using hx)] at hfind
        exact ih hfind

theorem find_entry_delete_other (reg : List Entry) {a b : String} (hab : a ≠ b) :
    find_entry (delete_entry reg b) a = find_entry reg a := by
  unfold find_entry delete_entry
  induction reg with
  | nil => simp
  | cons x xs ih =>
      by_cases hx : x.alias_ = a
      · have hq : ¬ x.alias_ = b := by rw [hx]; exact hab
        rw [List.filter_cons_of_pos (by simpa using hq)]
        rw [List.find?_cons_of_pos _ (by simpa using hx),
          List.find?_cons_of_pos _ (by simpa using hx)]
      · by_cases hq : x.alias_ = b
        · rw [List.filter_cons_of_neg (by simpa using hq)]
          rw [List.find?_cons_of_neg _ (by simpa using hx)]
          exact ih
        · rw [List.filter_cons_of_pos (by simpa using hq)]
          rw [List.find?_cons_of_neg _ (by simpa using hx),
            List.find?_cons_of_neg _ (by simpa using hx)]
          exact ih

theorem fuse_entry_right_eq (reg : List Entry) (dA aA : String)
    (donor acceptor : Entry)
    (hd : find_entry reg dA = some donor) (ha : find_entry reg aA = some acceptor) :
    fuse_entry_right reg dA aA =
      if ¬ (donor.task == acceptor.task) = true then .error .differentTasks
      else .ok (delete_entry (update_entry reg aA
        { acceptor with
            start := min donor.start acceptor.start,
            end_ := min donor.start acceptor.start + (acceptor.span + donor.span) }) dA) := by
  unfold fuse_entry_right
  rw [hd, ha]

/-! ## Sorting and grouping helper lemmas -/

theorem pyInsert_perm {α : Type} (le : α → α → Bool) (x : α) :
    ∀ l : List α, (pyInsert le x l).Perm (x :: l) := by
  intro l
  induction l with
  | nil => rfl
  | cons y ys ih =>
      unfold pyInsert
      by_cases h : le y x = true
      · rw [if_pos h]
        exact ((ih.cons y).trans (List.Perm.swap x y ys))
      · rw [if_neg h]

theorem pysorted_perm {α : Type} (le : α → α → Bool) (l : List α) :
    (pysorted le l).Perm l := by
  suffices h : ∀ (l acc : List α),
      (l.foldl (fun acc x => pyInsert le x acc) acc).Perm (acc ++ l) by
    simpa using h l []
  intro l
  induction l with
  | nil => simp
  | cons x xs ih =>
      intro acc
      simp only [List.foldl_cons]
      refine (ih (pyInsert le x acc)).trans ?_
      refine (((pyInsert_perm le x acc)).append_right xs).trans ?_
      simpa using List.perm_middle.symm

theorem pyInsert_pairwise {α : Type} (le : α → α → Bool)
    (htrans : ∀ a b c, le a b = true → le b c = true → le a c = true)
    (htot : ∀ a b, le a b = true ∨ le b a = true) (x : α) :
    ∀ l : List α, l.Pairwise (le · · = true) →
      (pyInsert le x l).Pairwise (le · · = true) := by
  intro l
  induction l with
  | nil => simp [pyInsert]
  | cons y ys ih =>
      intro h
      rcases List.pairwise_cons.mp h with ⟨hy, hys⟩
      unfold pyInsert
      by_cases hle : le y x = true
      · rw [if_pos hle]
        refine List.pairwise_cons.mpr ⟨?_, ih hys⟩
        intro z hz
        rcases List.mem_cons.mp ((pyInsert_perm le x ys).mem_iff.mp hz) with rfl | hzt
        · exact hle
        · exact hy z hzt
      · rw [if_neg hle]
        have hxy : le x y = true := (htot x y).resolve_right (by simpa using hle)
        refine List.pairwise_cons.mpr ⟨?_, h⟩
        intro z hz
        rcases List.mem_cons.mp hz with rfl | hzt
        · exact hxy
        · exact htrans x y z hxy (hy z hzt)

theorem pysorted_pairwise {α : Type} (le : α → α → Bool)
    (htrans : ∀ a b c, le a b = true → le b c = true → le a c = true)
    (htot : ∀ a b, le a b = true ∨ le b a = true) (l : List α) :
    (pysorted le l).Pairwise (le · · = true) := by
  suffices h : ∀ (l acc : List α), acc.Pairwise (le · · = true) →
      (l.foldl (fun acc x => pyInsert le x acc) acc).Pairwise (le · · = true) by
    exact h l [] (by simp)
  intro l
  induction l with
  | nil => intro acc h; simpa using h
  | cons x xs ih =>
      intro acc h
      simp only [List.foldl_cons]
      exact ih _ (pyInsert_pairwise le htrans htot x acc h)

theorem pygroupbyGo_join {α K : Type} [DecidableEq K] (k : α → K) :
    ∀ (rest : List α) (cur : α) (acc : List α),
      (pygroupbyGo k cur acc rest).flatten = acc ++ rest := by
  intro rest
  induction rest with
  | nil => intro cur acc; simp [pygroupbyGo]
  | cons b rest ih =>
      intro cur acc
      unfold pygroupbyGo
      by_cases h : k b = k cur
      · rw [if_pos h, ih]
        simp
      · rw [if_neg h]
        simp only [List.flatten_cons, ih]
        simp

theorem pygroupby_join {α K : Type} [DecidableEq K] (k : α → K) (l : List α) :
    (pygroupby k l).flatten = l := by
  cases l with
  | nil => rfl
  | cons a rest => simpa using pygroupbyGo_join k rest a [a]

theorem pygroupbyGo_ne_nil {α K : Type} [DecidableEq K] (k : α → K) :
    ∀ (rest : List α) (cur : α) (acc : List α), acc ≠ [] →
      ∀ g ∈ pygroupbyGo k cur acc rest, g ≠ [] := by
  intro rest
  induction rest with
  | nil =>
      intro cur acc hacc g hg
      simp only [pygroupbyGo, List.mem_singleton] at hg
      rw [hg]; exact hacc
  | cons b rest ih =>
      intro cur acc hacc g hg
      unfold pygroupbyGo at hg
      by_cases h : k b = k cur
      · rw [if_pos h] at hg
        exact ih cur (acc ++ [b]) (by simp) g hg
      · rw [if_neg h] at hg
        rcases List.mem_cons.mp hg with hg' | hg'
        · rw [hg']; exact hacc
        · exact ih b [b] (by simp) g hg'

theorem pygroupbyGo_homog {α K : Type} [DecidableEq K] (k : α → K) :
    ∀ (rest : List α) (cur : α) (acc : List α), (∀ a ∈ acc, k a = k cur) →
      ∀ g ∈ pygroupbyGo k cur acc rest, ∀ a ∈ g, ∀ b ∈ g, k a = k b := by
  intro rest
  induction rest with
  | nil =>
      intro cur acc hacc g hg a ha b hb
      simp only [pygroupbyGo, List.mem_singleton] at hg
      subst hg
      rw [hacc a ha, hacc b hb]
  | cons x rest ih =>
      intro cur acc hacc g hg a ha b hb
      unfold pygroupbyGo at hg
      by_cases h : k x = k cur
      · rw [if_pos h] at hg
        refine ih cur (acc ++ [x]) ?_ g hg a ha b hb
        intro y hy
        rcases List.mem_append.mp hy with hy' | hy'
        · exact hacc y hy'
        · rw [List.mem_singleton.mp hy']; exact h
      · rw [if_neg h] at hg
        rcases List.mem_cons.mp hg with hg' | hg'
        · subst hg'
          rw [hacc a ha, hacc b hb]
        · refine ih x [x] (by simp) g hg' a ha b hb

theorem pygroupbyGo_disjoint {α K : Type} [DecidableEq K] (k : α → K)
    (le : α → α → Bool)
    (htrans : ∀ a b c, le a b = true → le b c = true → le a c = true)
    (hkle : ∀ a b, k a = k b → le a b = true)
    (hkey : ∀ a b, le a b = true → le b a = true → k a = k b) :
    ∀ (rest : List α) (cur : α) (acc : List α),
      (acc ++ rest).Pairwise (le · · = true) →
      (∀ a ∈ acc, k a = k cur) →
      (pygroupbyGo k cur acc rest).Pairwise
        (fun g₁ g₂ => ∀ x ∈ g₁, ∀ y ∈ g₂, k x ≠ k y) := by
  intro rest
  induction rest with
  | nil => intro cur acc _ _; simp [pygroupbyGo]
  | cons b rest ih =>
      intro cur acc hsort hacc
      unfold pygroupbyGo
      by_cases h : k b = k cur
      · rw [if_pos h]
        refine ih cur (acc ++ [b]) (by simpa using hsort) ?_
        intro y hy
        rcases List.mem_append.mp hy with hy' | hy'
        · exact hacc y hy'
        · rw [List.mem_singleton.mp hy']; exact h
      · rw [if_neg h]
        have hsort' : (b :: rest).Pairwise (le · · = true) :=
          (List.pairwise_append.mp hsort).2.1
        have hcross : ∀ x ∈ acc, ∀ y ∈ b :: rest, le x y = true :=
          (List.pairwise_append.mp hsort).2.2
        refine List.pairwise_cons.mpr ⟨?_, ih b [b] (by simpa using hsort') (by simp)⟩
        intro g hg x hx y hy hkxy
        have hyrest : y ∈ b :: rest := by
          have hjoin := pygroupbyGo_join k rest b [b]
          have : y ∈ (pygroupbyGo k b [b] rest).flatten := List.mem_flatten.mpr ⟨g, hg, hy⟩
          rw [hjoin] at this
          simpa using this
        have hby : le b y = true := by
          rcases List.mem_cons.mp hyrest with hy' | hy'
          · rw [hy']; exact hkle b b rfl
          · exact (List.pairwise_cons.mp hsort').1 y hy'
        have hxb : le x b = true := hcross x hx b (List.mem_cons_self b rest)
        have hyx : le y x = true := hkle y x hkxy.symm
        have hbx : le b x = true := htrans b y x hby hyx
        have : k x = k b := hkey x b hxb hbx
        rw [hacc x hx] at this
        exact h this.symm

/-- Membership transfer: every element of every group is an element of the
grouped list. -/
theorem pygroupby_mem {α K : Type} [DecidableEq K] (k : α → K) (l : List α)
    {g : List α} (hg : g ∈ pygroupby k l) {a : α} (ha : a ∈ g) : a ∈ l := by
  have : a ∈ (pygroupby k l).flatten := List.mem_flatten.mpr ⟨g, hg, ha⟩
  rwa [pygroupby_join] at this

theorem pygroupby_ne_nil {α K : Type} [DecidableEq K] (k : α → K) (l : List α) :
    ∀ g ∈ pygroupby k l, g ≠ [] := by
  cases l with
  | nil => intro g hg; simp [pygroupby] at hg
  | cons a rest => exact pygroupbyGo_ne_nil k rest a [a] (by simp)

theorem pygroupby_homog {α K : Type} [DecidableEq K] (k : α → K) (l : List α) :
    ∀ g ∈ pygroupby k l, ∀ a ∈ g, ∀ b ∈ g, k a = k b := by
  cases l with
  | nil => intro g hg; simp [pygroupby] at hg
  | cons a rest => exact pygroupbyGo_homog k rest a [a] (by simp)

theorem pygroupby_disjoint {α K : Type} [DecidableEq K] (k : α → K)
    (le : α → α → Bool)
    (htrans : ∀ a b c, le a b = true → le b c = true → le a c = true)
    (hkle : ∀ a b, k a = k b → le a b = true)
    (hkey : ∀ a b, le a b = true → le b a = true → k a = k b)
    (l : List α) (hsort : l.Pairwise (le · · = true)) :
    (pygroupby k l).Pairwise (fun g₁ g₂ => ∀ x ∈ g₁, ∀ y ∈ g₂, k x ≠ k y) := by
  cases l with
  | nil => simp [pygroupby]
  | cons a rest =>
      exact pygroupbyGo_disjoint k le htrans hkle hkey rest a [a]
        (by simpa using hsort) (by simp)

/-! ## Order lemmas for the combine key -/

theorem lexLe_refl : ∀ l : List Char, lexLe l l = true := by
  intro l
  induction l with
  | nil => rfl
  | cons a as ih => simp [lexLe, ih]

theorem lexLe_total : ∀ a b : List Char, lexLe a b = true ∨ lexLe b a = true := by
  intro a
  induction a with
  | nil => intro b; left; rfl
  | cons x xs ih =>
      intro b
      cases b with
      | nil => right; rfl
      | cons y ys =>
          rcases lt_trichotomy x y with h | h | h
          · left; simp [lexLe, h]
          · subst h
            rcases ih ys with h' | h'
            · left; simp [lexLe, h']
            · right; simp [lexLe, h']
          · right; simp [lexLe, h]

theorem lexLe_trans :
    ∀ a b c : List Char, lexLe a b = true → lexLe b c = true → lexLe a c = true := by
  intro a
  induction a with
  | nil => intro b c _ _; rfl
  | cons x xs ih =>
      intro b c hab hbc
      cases b with
      | nil => simp [lexLe] at hab
      | cons y ys =>
          cases c with
          | nil => simp [lexLe] at hbc
          | cons z zs =>
              simp only [lexLe] at hab hbc ⊢
              by_cases hxy : x < y
              · by_cases hyz : y < z
                · simp [lt_trans hxy hyz]
                · simp only [if_neg hyz] at hbc
                  by_cases hyz' : y = z
                  · subst hyz'; simp [hxy]
                  · simp [hyz'] at hbc
              · simp only [if_neg hxy] at hab
                by_cases hxy' : x = y
                · subst hxy'
                  simp only [if_pos rfl] at hab
                  by_cases hxz : x < z
                  · simp [hxz]
                  · simp only [if_neg hxz]
                    by_cases hxz' : x = z
                    · subst hxz'
                      simp only [if_pos rfl] at hbc ⊢
                      simp only [lt_irrefl, if_neg (lt_irrefl x)] at hbc
                      exact ih ys zs hab hbc
                    · by_cases hyz : x < z
                      · exact absurd hyz hxz
                      · simp only [if_neg hyz] at hbc
                        simp [hxz'] at hbc
                · simp [hxy'] at hab

theorem lexLe_antisymm :
    ∀ a b : List Char, lexLe a b = true → lexLe b a = true → a = b := by
  intro a
  induction a with
  | nil =>
      intro b _ hba
      cases b with
      | nil => rfl
      | cons y ys => simp [lexLe] at hba
  | cons x xs ih =>
      intro b hab hba
      cases b with
      | nil => simp [lexLe] at hab
      | cons y ys =>
          simp only [lexLe] at hab hba
          by_cases hxy : x < y
          · have : ¬ y < x := lt_asymm hxy
            simp only [if_neg this] at hba
            have : ¬ y = x := fun h => absurd hxy (by rw [h]; exact lt_irrefl x)
            simp [this] at hba
          · simp only [if_neg hxy] at hab
            by_cases hxy' : x = y
            · subst hxy'
              simp only [if_pos rfl] at hab
              simp only [if_neg (lt_irrefl x), if_pos rfl] at hba
              rw [ih ys hab hba]
            · simp [hxy'] at hab

theorem strLe_refl (a : String) : strLe a a = true := lexLe_refl a.data

theorem strLe_total (a b : String) : strLe a b = true ∨ strLe b a = true :=
  lexLe_total a.data b.data

theorem strLe_trans {a b c : String} (h₁ : strLe a b = true) (h₂ : strLe b c = true) :
    strLe a c = true := lexLe_trans a.data b.data c.data h₁ h₂

theorem strLe_antisymm {a b : String} (h₁ : strLe a b = true) (h₂ : strLe b a = true) :
    a = b := by
  cases a with
  | mk da =>
      cases b with
      | mk db =>
          have : da = db := lexLe_antisymm da db h₁ h₂
          rw [this]

theorem keyLe_trans (a b c : Entry) (h₁ : keyLe a b = true) (h₂ : keyLe b c = true) :
    keyLe a c = true := by
  unfold keyLe at *
  simp only [Bool.or_eq_true, Bool.and_eq_true, decide_eq_true_eq] at h₁ h₂ ⊢
  rcases h₁ with h₁ | ⟨h₁e, h₁'⟩
  · rcases h₂ with h₂ | ⟨h₂e, -⟩
    · exact Or.inl (lt_trans h₁ h₂)
    · exact Or.inl (h₂e ▸ h₁)
  · rcases h₂ with h₂ | ⟨h₂e, h₂'⟩
    · exact Or.inl (h₁e ▸ h₂)
    · refine Or.inr ⟨h₁e.trans h₂e, ?_⟩
      rcases h₁' with h₁' | ⟨h₁e', h₁''⟩
      · rcases h₂' with h₂' | ⟨h₂e', -⟩
        · exact Or.inl (lt_trans h₁' h₂')
        · exact Or.inl (h₂e' ▸ h₁')
      · rcases h₂' with h₂' | ⟨h₂e', h₂''⟩
        · exact Or.inl (h₁e' ▸ h₂')
        · exact Or.inr ⟨h₁e'.trans h₂e', strLe_trans h₁'' h₂''⟩

theorem keyLe_total (a b : Entry) : keyLe a b = true ∨ keyLe b a = true := by
  unfold keyLe
  simp only [Bool.or_eq_true, Bool.and_eq_true, decide_eq_true_eq]
  rcases lt_trichotomy (grouping_order a).1 (grouping_order b).1 with h | h | h
  · exact Or.inl (Or.inl h)
  · rcases lt_trichotomy (grouping_order a).2.1 (grouping_order b).2.1 with h' | h' | h'
    · exact Or.inl (Or.inr ⟨h, Or.inl h'⟩)
    · rcases strLe_total (grouping_order a).2.2 (grouping_order b).2.2 with h'' | h''
      · exact Or.inl (Or.inr ⟨h, Or.inr ⟨h', h''⟩⟩)
      · exact Or.inr (Or.inr ⟨h.symm, Or.inr ⟨h'.symm, h''⟩⟩)
    · exact Or.inr (Or.inr ⟨h.symm, Or.inl h'⟩)
  · exact Or.inr (Or.inl h)

theorem keyLe_of_key_eq (a b : Entry) (h : grouping_order a = grouping_order b) :
    keyLe a b = true := by
  unfold keyLe
  simp only [Bool.or_eq_true, Bool.and_eq_true, decide_eq_true_eq]
  have h1 : (grouping_order a).1 = (grouping_order b).1 := by rw [h]
  have h2 : (grouping_order a).2.1 = (grouping_order b).2.1 := by rw [h]
  have h3 : (grouping_order a).2.2 = (grouping_order b).2.2 := by rw [h]
  exact Or.inr ⟨h1, Or.inr ⟨h2, h3 ▸ strLe_refl _⟩⟩

theorem keyLe_antisymm (a b : Entry) (h₁ : keyLe a b = true) (h₂ : keyLe b a = true) :
    grouping_order a = grouping_order b := by
  unfold keyLe at h₁ h₂
  simp only [Bool.or_eq_true, Bool.and_eq_true, decide_eq_true_eq] at h₁ h₂
  rcases h₁ with h₁ | ⟨h₁e, h₁'⟩
  · rcases h₂ with h₂ | ⟨h₂e, -⟩
    · exact absurd h₂ (lt_asymm h₁)
    · exact absurd h₁ (h₂e ▸ lt_irrefl _)
  · rcases h₂ with h₂ | ⟨-, h₂'⟩
    · exact absurd h₂ (h₁e ▸ lt_irrefl _)
    · have h23 : (grouping_order a).2 = (grouping_order b).2 := by
        rcases h₁' with h₁' | ⟨h₁e', h₁''⟩
        · rcases h₂' with h₂' | ⟨h₂e', -⟩
          · exact absurd h₂' (lt_asymm h₁')
          · exact absurd h₁' (h₂e' ▸ lt_irrefl _)
        · rcases h₂' with h₂' | ⟨-, h₂''⟩
          · exact absurd h₂' (h₁e' ▸ lt_irrefl _)
          · exact Prod.ext h₁e' (strLe_antisymm h₁'' h₂'')
      exact Prod.ext h₁e h23

theorem startLe_trans (a b c : Entry) (h₁ : startLe a b = true)
    (h₂ : startLe b c = true) : startLe a c = true := by
  unfold startLe at *
  simp only [decide_eq_true_eq] at *
  omega

theorem startLe_total (a b : Entry) : startLe a b = true ∨ startLe b a = true := by
  unfold startLe
  simp only [decide_eq_true_eq]
  omega

/-! ## Combine helper lemmas -/

theorem grouping_order_update_end (e : Entry) (x : Int) :
    grouping_order { e with end_ := x } = grouping_order e := rfl

theorem combineGroup_spec (g : List Entry) (hne : g ≠ []) :
    ∃ c₀ ∈ g,
      combineGroup g = { c₀ with end_ := c₀.start + (g.map Entry.span).sum } ∧
      ∀ m ∈ g, c₀.start ≤ m.start := by
  have hperm : (pysorted startLe g).Perm g := pysorted_perm startLe g
  have hpair := pysorted_pairwise startLe startLe_trans startLe_total g
  cases hfr : pysorted startLe g with
  | nil =>
      rw [hfr] at hperm
      exact absurd (hperm.symm.length_eq ▸ rfl : g.length = 0)
        (fun h0 => hne (List.length_eq_zero.mp h0))
  | cons c₀ tail =>
      rw [hfr] at hperm hpair
      have hc₀ : c₀ ∈ g := hperm.mem_iff.mp (List.mem_cons_self c₀ tail)
      refine ⟨c₀, hc₀, ?_, ?_⟩
      · have hsum : ((c₀ :: tail).map Entry.span).sum = (g.map Entry.span).sum :=
          (hperm.map Entry.span).sum_eq
        unfold combineGroup
        rw [hfr]
        simp only [hsum]
      · intro m hm
        rcases List.mem_cons.mp (hperm.mem_iff.mpr hm) with rfl | hm'
        · exact le_refl _
        · have := (List.pairwise_cons.mp hpair).1 m hm'
          unfold startLe at this
          simpa using this

/-- Abbreviation for the key-disjointness relation between groups. -/
theorem pygroupby_entry_facts (entries : List Entry) :
    (pysorted keyLe entries).Perm entries ∧
    (pygroupby grouping_order (pysorted keyLe entries)).flatten = pysorted keyLe entries ∧
    (∀ g ∈ pygroupby grouping_order (pysorted keyLe entries), g ≠ []) ∧
    (∀ g ∈ pygroupby grouping_order (pysorted keyLe entries),
      ∀ a ∈ g, ∀ b ∈ g, grouping_order a = grouping_order b) ∧
    (pygroupby grouping_order (pysorted keyLe entries)).Pairwise
      (fun g₁ g₂ => ∀ x ∈ g₁, ∀ y ∈ g₂, grouping_order x ≠ grouping_order y) := by
  refine ⟨pysorted_perm keyLe entries, pygroupby_join _ _, pygroupby_ne_nil _ _,
    pygroupby_homog _ _, ?_⟩
  exact pygroupby_disjoint grouping_order keyLe keyLe_trans keyLe_of_key_eq
    keyLe_antisymm _
    (pysorted_pairwise keyLe keyLe_trans keyLe_total entries)

theorem map_flatten_eq_nil {α β : Type} (f : α → List β) (G : List α)
    (h : ∀ g ∈ G, f g = []) : (G.map f).flatten = [] := by
  induction G with
  | nil => rfl
  | cons a G' ih =>
      simp only [List.map_cons, List.flatten_cons, h a (List.mem_cons_self a G'),
        List.nil_append]
      exact ih (fun b hb => h b (List.mem_cons_of_mem a hb))

theorem flatten_filter_of_groups {G : List (List Entry)} {g : List Entry} {v : Int × Nat × String}
    (hdisj : G.Pairwise (fun g₁ g₂ => ∀ x ∈ g₁, ∀ y ∈ g₂,
      grouping_order x ≠ grouping_order y))
    (hg : g ∈ G) (hgne : g ≠ []) (hv : ∀ x ∈ g, grouping_order x = v) :
    (G.map (List.filter (fun x => decide (grouping_order x = v)))).flatten = g := by
  induction G with
  | nil => simp at hg
  | cons g₁ G' ih =>
      rcases List.pairwise_cons.mp hdisj with ⟨hd₁, hd'⟩
      rcases List.mem_cons.mp hg with rfl | hg'
      · have h₁ : List.filter (fun x => decide (grouping_order x = v)) g = g :=
          List.filter_eq_self.mpr (fun a ha => by simpa using hv a ha)
        have h₂ : ∀ g' ∈ G',
            List.filter (fun x => decide (grouping_order x = v)) g' = [] := by
          intro g' hg'
          refine List.filter_eq_nil.mpr (fun y hy => ?_)
          rcases List.exists_mem_of_ne_nil g hgne with ⟨x₀, hx₀⟩
          have := hd₁ g' hg' x₀ hx₀ y hy
          rw [hv x₀ hx₀] at this
          simpa using fun h => this h.symm
        have h₃ : (G'.map (List.filter (fun x => decide (grouping_order x = v)))).flatten
            = [] := map_flatten_eq_nil _ G' h₂
        simp [h₁, h₃]
      · have h₁ : List.filter (fun x => decide (grouping_order x = v)) g₁ = [] := by
          refine List.filter_eq_nil.mpr (fun y hy => ?_)
          rcases List.exists_mem_of_ne_nil g hgne with ⟨x₀, hx₀⟩
          have := hd₁ g hg' y hy x₀ hx₀
          rw [hv x₀ hx₀] at this
          simpa using this
        simp only [List.map_cons, List.flatten_cons, h₁, List.nil_append]
        exact ih hd' hg'

theorem sum_pred_lengths (G : List (List Entry)) (hne : ∀ g ∈ G, g ≠ []) :
    (G.map (fun g => g.length - 1)).sum + G.length = (G.map List.length).sum := by
  induction G with
  | nil => rfl
  | cons a G' ih =>
      have ha : 0 < a.length := List.length_pos.mpr (hne a (List.mem_cons_self a G'))
      have ih' := ih (fun g hg => hne g (List.mem_cons_of_mem a hg))
      simp only [List.map_cons, List.sum_cons, List.length_cons]
      omega

theorem survivors_count_one {G : List (List Entry)}
    (hdisj : G.Pairwise (fun g₁ g₂ => ∀ x ∈ g₁, ∀ y ∈ g₂,
      grouping_order x ≠ grouping_order y))
    (hne : ∀ g ∈ G, g ≠ [])
    (hhomog : ∀ g ∈ G, ∀ a ∈ g, ∀ b ∈ g, grouping_order a = grouping_order b)
    {e : Entry} {ge : List Entry} (hge : ge ∈ G) (he : e ∈ ge) :
    ((G.map combineGroup).filter
      (fun c => decide (grouping_order c = grouping_order e))).length = 1 := by
  induction G with
  | nil => simp at hge
  | cons g₁ G' ih =>
      rcases List.pairwise_cons.mp hdisj with ⟨hd₁, hd'⟩
      obtain ⟨c₀, hc₀, hceq, -⟩ :=
        combineGroup_spec g₁ (hne g₁ (List.mem_cons_self g₁ G'))
      have hkey₁ : grouping_order (combineGroup g₁) = grouping_order c₀ := by
        rw [hceq, grouping_order_update_end]
      rcases List.mem_cons.mp hge with rfl | hge'
      · have hmatch : grouping_order (combineGroup ge) = grouping_order e := by
          rw [hkey₁]
          exact hhomog ge (List.mem_cons_self ge G') c₀ hc₀ e he
        have hrest : (G'.map combineGroup).filter
            (fun c => decide (grouping_order c = grouping_order e)) = [] := by
          refine List.filter_eq_nil.mpr (fun c hc => ?_)
          obtain ⟨g', hg', hcg'⟩ := List.mem_map.mp hc
          obtain ⟨c₀', hc₀', hceq', -⟩ :=
            combineGroup_spec g' (hne g' (List.mem_cons_of_mem ge hg'))
          have hkey' : grouping_order c = grouping_order c₀' := by
            rw [← hcg', hceq', grouping_order_update_end]
          have hne' := hd₁ g' hg' e he c₀' hc₀'
          simp only [decide_eq_true_eq]
          rw [hkey']
          exact fun h => hne' h.symm
        rw [List.map_cons, List.filter_cons_of_pos (by simpa using hmatch), hrest]
        simp
      · have hnomatch : ¬ grouping_order (combineGroup g₁) = grouping_order e := by
          rw [hkey₁]
          exact hd₁ ge hge' c₀ hc₀ e he
        rw [List.map_cons, List.filter_cons_of_neg (by simpa using hnomatch)]
        exact ih hd' (fun g hg => hne g (List.mem_cons_of_mem g₁ hg))
          (fun g hg => hhomog g (List.mem_cons_of_mem g₁ hg)) hge'

/-! ## C4: combine by description -/

/-- Claim C4: combine groups the given entries by the exact triple (start
day, task id, description text); within each group it keeps the
earliest-starting entry, sets its end to its start plus the sum of all group
members' spans, deletes every other member, and returns the number of
entries deleted (total minus number of groups); the date-ranged variant
first filters to entries whose start date lies within the closed range. -/
theorem Entry.combine_correct (entries : List Entry) :
    ((Entry.combine entries).2 + (Entry.combine entries).1.length = entries.length)
    ∧ (∀ c ∈ (Entry.combine entries).1,
        (entries.filter (fun e => decide (grouping_order e = grouping_order c))) ≠ [] ∧
        (∀ m ∈ entries.filter (fun e => decide (grouping_order e = grouping_order c)),
          c.start ≤ m.start) ∧
        (∃ m ∈ entries.filter (fun e => decide (grouping_order e = grouping_order c)),
          c = { m with end_ := c.end_ }) ∧
        c.end_ = c.start +
          ((entries.filter (fun e => decide (grouping_order e = grouping_order c))).map
            Entry.span).sum)
    ∧ (∀ e ∈ entries,
        ((Entry.combine entries).1.filter
          (fun c => decide (grouping_order c = grouping_order e))).length = 1)
    ∧ (∀ (reg : List Entry) (since until_ : Int),
        Entry.combine_for reg since until_ =
          Entry.combine (reg.filter (fun e => decide (since ≤ e.day ∧ e.day ≤ until_)))) := by
  obtain ⟨hSperm, hjoin, hne, hhomog, hdisj⟩ := pygroupby_entry_facts entries
  have hcombine : Entry.combine entries =
      ((pygroupby grouping_order (pysorted keyLe entries)).map combineGroup,
       ((pygroupby grouping_order (pysorted keyLe entries)).map
         (fun g => g.length - 1)).sum) := rfl
  refine ⟨?_, ?_, ?_, fun reg since until_ => rfl⟩
  · rw [hcombine]
    simp only [List.length_map]
    have h1 := sum_pred_lengths _ hne
    have h2 := List.length_flatten (pygroupby grouping_order (pysorted keyLe entries))
    rw [hjoin] at h2
    have h3 := hSperm.length_eq
    omega
  · intro c hc
    rw [hcombine] at hc
    obtain ⟨g, hgG, hcg⟩ := List.mem_map.mp hc
    obtain ⟨c₀, hc₀g, hceq, hmin⟩ := combineGroup_spec g (hne g hgG)
    have hkeyc : grouping_order c = grouping_order c₀ := by
      rw [← hcg, hceq, grouping_order_update_end]
    have hv : ∀ x ∈ g, grouping_order x = grouping_order c := by
      intro x hx
      rw [hkeyc]
      exact hhomog g hgG x hx c₀ hc₀g
    have hmembers :
        (entries.filter (fun e => decide (grouping_order e = grouping_order c))).Perm g := by
      have hstep₁ :
          (entries.filter (fun e => decide (grouping_order e = grouping_order c))).Perm
            ((pysorted keyLe entries).filter
              (fun e => decide (grouping_order e = grouping_order c))) :=
        (hSperm.filter _).symm
      have hstep₂ : (pysorted keyLe entries).filter
            (fun e => decide (grouping_order e = grouping_order c)) = g := by
        rw [← hjoin, List.filter_flatten]
        exact flatten_filter_of_groups hdisj hgG (hne g hgG) hv
      rw [hstep₂] at hstep₁
      exact hstep₁
    have hstart : c.start = c₀.start := by rw [← hcg, hceq]
    have hend : c.end_ = c₀.start + (g.map Entry.span).sum := by rw [← hcg, hceq]
    refine ⟨?_, ?_, ?_, ?_⟩
    · intro h0
      rw [h0] at hmembers
      have := hmembers.length_eq
      simp only [List.length_nil] at this
      exact hne g hgG (List.length_eq_zero.mp this.symm)
    · intro m hm
      rw [hstart]
      exact hmin m (hmembers.mem_iff.mp hm)
    · refine ⟨c₀, hmembers.mem_iff.mpr hc₀g, ?_⟩
      rw [← hcg, hceq]
    · rw [hend, hstart, (hmembers.map Entry.span).sum_eq]
  · intro e he
    rw [hcombine]
    have heS : e ∈ pysorted keyLe entries := hSperm.mem_iff.mpr he
    rw [← hjoin] at heS
    obtain ⟨ge, hge, hege⟩ := List.mem_flatten.mp heS
    exact survivors_count_one hdisj hne hhomog hge hege

/-- Witness for C4 at the three-entry example: three same-day same-task
entries with text "Standup" and spans 10m, 5m, 15m collapse to one entry of
span 30m starting at the earliest start, with deleted count 2. -/
theorem Entry_combine_correct_witness :
    (Entry.combine [standup2, standup1, standup3]).2 +
      (Entry.combine [standup2, standup1, standup3]).1.length = 3 ∧
    Entry.combine [standup2, standup1, standup3] =
      ([{ standup1 with end_ := standup1.start + 1800 }], 2) :=
  ⟨(Entry.combine_correct [standup2, standup1, standup3]).1, by decide⟩

/-! ## C2: start ≤ end is preserved by every mutating operation -/

/-- Claim C2: every mutating operation keeps `start ≤ end` (for the
nonnegative deltas the Span token produces); decrease and contract reject a
delta at least the current span with an error, leaving the entry unchanged
(the embedding is pure, so rejection returns only the error), and succeed
for smaller deltas by adjusting end or start by exactly the delta. -/
theorem mutations_preserve_interval :
    (∀ (e : Entry) (d : Int), 0 ≤ d →
      (set_entry_duration e d).start ≤ (set_entry_duration e d).end_) ∧
    (∀ (e : Entry) (d : Int), e.start ≤ e.end_ → 0 ≤ d →
      (increase_entry_duration e d).start ≤ (increase_entry_duration e d).end_) ∧
    (∀ (e : Entry) (d : Int), d ≥ e.span →
      decrease_entry_duration e d = .error .cannotDecrease) ∧
    (∀ (e : Entry) (d : Int), d < e.span →
      decrease_entry_duration e d = .ok { e with end_ := e.end_ - d } ∧
      ({ e with end_ := e.end_ - d } : Entry).start <
        ({ e with end_ := e.end_ - d } : Entry).end_) ∧
    (∀ (e : Entry) (d : Int), e.start ≤ e.end_ → 0 ≤ d →
      (expand_entry_duration e d).start ≤ (expand_entry_duration e d).end_) ∧
    (∀ (e : Entry) (d : Int), d ≥ e.span →
      contract_entry_duration e d = .error .cannotContract) ∧
    (∀ (e : Entry) (d : Int), d < e.span →
      contract_entry_duration e d = .ok { e with start := e.start + d } ∧
      ({ e with start := e.start + d } : Entry).start <
        ({ e with start := e.start + d } : Entry).end_) ∧
    (∀ (e : Entry) (d : Int), e.start ≤ e.end_ →
      (shift_entry_ahead e d).start ≤ (shift_entry_ahead e d).end_) ∧
    (∀ (e : Entry) (d : Int), e.start ≤ e.end_ →
      (shift_entry_behind e d).start ≤ (shift_entry_behind e d).end_) ∧
    (∀ (e : Entry) (t : Int), e.start ≤ e.end_ →
      (set_entry_start_time e t).start ≤ (set_entry_start_time e t).end_) ∧
    (∀ (reg : List Entry) (parent : Entry) (d : Int) (t : String) (p c : Entry),
      parent.start ≤ parent.end_ → 0 ≤ d →
      split_entry reg parent d t = .ok (p, c) →
      p.start ≤ p.end_ ∧ c.start ≤ c.end_) ∧
    (∀ (reg reg' : List Entry) (dA aA : String),
      (∀ x ∈ reg, x.start ≤ x.end_) →
      fuse_entry_right reg dA aA = .ok reg' →
      ∀ x ∈ reg', x.start ≤ x.end_) ∧
    (∀ (entries : List Entry), (∀ x ∈ entries, x.start ≤ x.end_) →
      ∀ c ∈ (Entry.combine entries).1, c.start ≤ c.end_) := by
  refine ⟨?_, ?_, ?_, ?_, ?_, ?_, ?_, ?_, ?_, ?_, ?_, ?_, ?_⟩
  · intro e d hd
    simp only [set_entry_duration]
    omega
  · intro e d he hd
    simp only [increase_entry_duration]
    omega
  · intro e d hd
    simp only [decrease_entry_duration, if_pos hd]
  · intro e d hd
    have hd' : ¬ d ≥ e.span := not_le.mpr hd
    unfold Entry.span at hd
    refine ⟨by simp only [decrease_entry_duration, if_neg hd'], ?_⟩
    simp only
    omega
  · intro e d he hd
    simp only [expand_entry_duration]
    omega
  · intro e d hd
    simp only [contract_entry_duration, if_pos hd]
  · intro e d hd
    have hd' : ¬ d ≥ e.span := not_le.mpr hd
    unfold Entry.span at hd
    refine ⟨by simp only [contract_entry_duration, if_neg hd'], ?_⟩
    simp only
    omega
  · intro e d he
    simp only [shift_entry_ahead]
    omega
  · intro e d he
    simp only [shift_entry_behind]
    omega
  · intro e t he
    simp only [set_entry_start_time]
    unfold Entry.span
    omega
  · intro reg parent d t p c hwf hd hok
    have hlt : ¬ d ≥ parent.span := by
      intro hge
      rw [split_entry, if_pos hge] at hok
      exact absurd hok (by simp)
    rw [split_entry, if_neg hlt] at hok
    injection hok with h2
    obtain ⟨hp, hc⟩ := Prod.mk.injEq .. |>.mp h2
    unfold Entry.span at hlt
    constructor
    · rw [← hp]
      simp only
      omega
    · rw [← hc]
      simp only
      omega
  · intro reg reg' dA aA hwf hok
    cases hfd : find_entry reg dA with
    | none =>
        have heq : fuse_entry_right reg dA aA = .error .noSuchEntry := by
          unfold fuse_entry_right
          rw [hfd]
        rw [heq] at hok
        exact absurd hok (by simp)
    | some donor =>
        cases hfa : find_entry reg aA with
        | none =>
            have heq : fuse_entry_right reg dA aA = .error .noSuchEntry := by
              unfold fuse_entry_right
              rw [hfd, hfa]
            rw [heq] at hok
            exact absurd hok (by simp)
        | some acceptor =>
            rw [fuse_entry_right_eq reg dA aA donor acceptor hfd hfa] at hok
            by_cases htask : ¬ (donor.task == acceptor.task) = true
            · rw [if_pos htask] at hok
              exact absurd hok (by simp)
            · rw [if_neg htask] at hok
              injection hok with h2
              have hdwf : donor.start ≤ donor.end_ :=
                hwf donor (List.mem_of_find?_eq_some hfd)
              have hawf : acceptor.start ≤ acceptor.end_ :=
                hwf acceptor (List.mem_of_find?_eq_some hfa)
              intro x hx
              rw [← h2] at hx
              have hx' := List.mem_filter.mp hx |>.1
              obtain ⟨y, hy, hxy⟩ := List.mem_map.mp hx'
              by_cases hya : y.alias_ = aA
              · rw [if_pos hya] at hxy
                rw [← hxy]
                simp only
                unfold Entry.span
                omega
              · rw [if_neg hya] at hxy
                rw [← hxy]
                exact hwf y hy
  · intro entries hwf c hc
    have hcombine : Entry.combine entries =
        ((pygroupby grouping_order (pysorted keyLe entries)).map combineGroup,
         ((pygroupby grouping_order (pysorted keyLe entries)).map
           (fun g => g.length - 1)).sum) := rfl
    rw [hcombine] at hc
    obtain ⟨g, hgG, hcg⟩ := List.mem_map.mp hc
    obtain ⟨c₀, hc₀g, hceq, -⟩ :=
      combineGroup_spec g (pygroupby_ne_nil _ _ g hgG)
    have hsum : (0 : Int) ≤ (g.map Entry.span).sum := by
      refine List.sum_nonneg (fun s hs => ?_)
      obtain ⟨x, hx, hxs⟩ := List.mem_map.mp hs
      have hxe : x ∈ entries :=
        (pysorted_perm keyLe entries).mem_iff.mp (pygroupby_mem _ _ hgG hx)
      have := hwf x hxe
      rw [← hxs]
      unfold Entry.span
      omega
    rw [← hcg, hceq]
    simp only
    omega

/-- Witness for C2 at concrete entries and deltas. -/
theorem mutations_preserve_interval_witness :
    (set_entry_duration entryA 3600).start ≤ (set_entry_duration entryA 3600).end_ ∧
    (increase_entry_duration entryA 600).start ≤ (increase_entry_duration entryA 600).end_ ∧
    decrease_entry_duration entryA 3600 = .error .cannotDecrease ∧
    decrease_entry_duration entryA 600 = .ok { entryA with end_ := entryA.end_ - 600 } ∧
    (expand_entry_duration entryA 600).start ≤ (expand_entry_duration entryA 600).end_ ∧
    contract_entry_duration entryA 3600 = .error .cannotContract ∧
    contract_entry_duration entryA 600 = .ok { entryA with start := entryA.start + 600 } ∧
    (shift_entry_ahead entryA 600).start ≤ (shift_entry_ahead entryA 600).end_ ∧
    (shift_entry_behind entryA 600).start ≤ (shift_entry_behind entryA 600).end_ ∧
    (set_entry_start_time entryA 36000).start ≤ (set_entry_start_time entryA 36000).end_ ∧
    (∀ x ∈ [fusedAB], x.start ≤ x.end_) ∧
    (∀ c ∈ (Entry.combine [standup2, standup1, standup3]).1, c.start ≤ c.end_) := by
  obtain ⟨h1, h2, h3, h4, h5, h6, h7, h8, h9, h10, -, h12, h13⟩ :=
    mutations_preserve_interval
  refine ⟨h1 entryA 3600 (by decide), h2 entryA 600 (by decide) (by decide),
    h3 entryA 3600 (by decide), (h4 entryA 600 (by decide)).1,
    h5 entryA 600 (by decide) (by decide), h6 entryA 3600 (by decide),
    (h7 entryA 600 (by decide)).1, h8 entryA 600 (by decide),
    h9 entryA 600 (by decide), h10 entryA 36000 (by decide),
    h12 [entryA, entryB] [fusedAB] "AA" "BB" (by decide) (by rfl),
    h13 [standup2, standup1, standup3] (by decide)⟩

/-! ## Fresh-id and alias-generation helper lemmas -/

theorem gen_id_aux_spec (ids : List Nat) (ref : Nat) :
    ∀ (fuel i : Nat), (∃ j, i ≤ j ∧ j < i + fuel ∧ (ref + j) ∉ ids) →
      gen_id_aux ids ref fuel i ∉ ids ∧
      ∃ k, i ≤ k ∧ gen_id_aux ids ref fuel i = ref + k ∧
        ∀ j, i ≤ j → j < k → (ref + j) ∈ ids := by
  intro fuel
  induction fuel with
  | zero =>
      intro i ⟨j, hij, hj, _⟩
      omega
  | succ fuel ih =>
      intro i ⟨j, hij, hj, hfree⟩
      unfold gen_id_aux
      by_cases hmem : (ref + i) ∈ ids
      · rw [if_pos hmem]
        have hji : i ≠ j := fun h => (h ▸ hfree) hmem
        obtain ⟨hni, ⟨k, hk₁, hk₂, hk₃⟩⟩ :=
          ih (i + 1) ⟨j, by omega, by omega, hfree⟩
        refine ⟨hni, k, by omega, hk₂, ?_⟩
        intro j' hj₁ hj₂
        rcases Nat.eq_or_lt_of_le hj₁ with rfl | hlt
        · exact hmem
        · exact hk₃ j' hlt hj₂
      · rw [if_neg hmem]
        exact ⟨hmem, i, le_refl i, rfl, fun j' h₁ h₂ => absurd (lt_of_le_of_lt h₁ h₂)
          (lt_irrefl i)⟩

theorem exists_free_increment (ids : List Nat) (ref : Nat) :
    ∃ j, 1 ≤ j ∧ j < 1 + (ids.length + 1) ∧ (ref + j) ∉ ids := by
  by_contra hall
  push_neg at hall
  have hsub : ((List.range (ids.length + 1)).map (fun t => ref + 1 + t)).toFinset ⊆
      ids.toFinset := by
    intro x hx
    rw [List.mem_toFinset] at hx ⊢
    obtain ⟨t, ht, rfl⟩ := List.mem_map.mp hx
    rw [List.mem_range] at ht
    have := hall (1 + t) (by omega) (by omega)
    have harith : ref + (1 + t) = ref + 1 + t := by omega
    rwa [harith] at this
  have hnodup : ((List.range (ids.length + 1)).map (fun t => ref + 1 + t)).Nodup :=
    (List.nodup_range _).map (fun a b h => by omega)
  have hcard₁ : ((List.range (ids.length + 1)).map (fun t => ref + 1 + t)).toFinset.card
      = ids.length + 1 := by
    rw [List.toFinset_card_of_nodup hnodup]
    simp
  have hcard₂ : ids.toFinset.card ≤ ids.length := ids.toFinset_card_le
  have := Finset.card_le_card hsub
  omega

theorem Entry.gen_id_spec (reg : List Entry) (reference : Entry) :
    Entry.gen_id reg reference ∉ reg.map Entry.id ∧
    ∃ k, 1 ≤ k ∧ Entry.gen_id reg reference = reference.id + k ∧
      ∀ j, 1 ≤ j → j < k → (reference.id + j) ∈ reg.map Entry.id := by
  have hlen : (reg.map Entry.id).length = reg.length := List.length_map reg Entry.id
  obtain ⟨j, hj₁, hj₂, hj₃⟩ := exists_free_increment (reg.map Entry.id) reference.id
  have := gen_id_aux_spec (reg.map Entry.id) reference.id (reg.length + 1) 1
    ⟨j, hj₁, by omega, hj₃⟩
  exact this

theorem Alias.gen_mod (s : Nat) : Alias.gen s = Alias.gen (s % 676) := by
  unfold Alias.gen
  have h₁ : s % 676 % 26 = s % 26 :=
    Nat.mod_mod_of_dvd s (by norm_num)
  have h₂ : s % 676 / 26 % 26 = s / 26 % 26 := by omega
  rw [h₁, h₂]

theorem gen_alias_fuel_spec (occupied : List String) :
    ∀ (fuel seed : Nat), (∃ i, i < fuel ∧ Alias.gen (seed + i) ∉ occupied) →
      ∃ a, gen_alias_fuel occupied seed fuel = some a ∧ a ∉ occupied := by
  intro fuel
  induction fuel with
  | zero =>
      intro seed ⟨i, hi, _⟩
      omega
  | succ fuel ih =>
      intro seed ⟨i, hi, hfree⟩
      unfold gen_alias_fuel
      by_cases hmem : Alias.gen seed ∈ occupied
      · rw [if_pos hmem]
        have hne : i ≠ 0 := by
          intro h0
          rw [h0, Nat.add_zero] at hfree
          exact hfree hmem
        refine ih (seed + 1) ⟨i - 1, by omega, ?_⟩
        have : seed + 1 + (i - 1) = seed + i := by omega
        rwa [this]
      · rw [if_neg hmem]
        exact ⟨Alias.gen seed, rfl, hmem⟩

/-! ## C3: split -/

/-- Claim C3: splitting with a detach duration at least the parent's span is
rejected with an error; otherwise the child covers the final `d` of the
parent's interval, is owned by the same task, carries the given text unless
it is empty or the placeholder (then the parent's text), the parent keeps
its start and its end shrinks by `d`, and the child's id is derived from the
parent's id by probing successive increments until an unused one is found. -/
theorem split_entry_correct (reg : List Entry) (parent : Entry) (d : Int) (t : String) :
    (d ≥ parent.span → split_entry reg parent d t = .error .cannotDetach) ∧
    (d < parent.span → ∃ parent' child,
      split_entry reg parent d t = .ok (parent', child) ∧
      parent' = { parent with end_ := parent.end_ - d } ∧
      child.start = parent.end_ - d ∧ child.end_ = parent.end_ ∧
      child.task = parent.task ∧
      child.text = (if t = "" ∨ t = "..." then parent.text else t) ∧
      child.id ∉ reg.map Entry.id ∧
      ∃ k, 1 ≤ k ∧ child.id = parent.id + k ∧
        ∀ j, 1 ≤ j → j < k → (parent.id + j) ∈ reg.map Entry.id) := by
  constructor
  · intro hge
    rw [split_entry, if_pos hge]
  · intro hlt
    obtain ⟨hfresh, k, hk₁, hk₂, hk₃⟩ := Entry.gen_id_spec reg parent
    refine ⟨{ parent with end_ := parent.end_ - d },
      { id := Entry.gen_id reg parent
        task := parent.task
        start := parent.end_ - d
        end_ := parent.end_
        text := if t = "" ∨ t = "..." then parent.text else t
        alias_ := gen_alias (reg.map Entry.alias_) (Entry.gen_id reg parent) },
      ?_, rfl, rfl, rfl, rfl, rfl, hfresh, k, hk₁, hk₂, hk₃⟩
    rw [split_entry, if_neg (not_le.mpr hlt)]

/-- Witness for C3: splitting a 30-minute piece off the 09:00–09:30 entry. -/
theorem split_entry_correct_witness :
    ∃ parent' child,
      split_entry [entryA, entryB] entryA 600 "foo" = .ok (parent', child) ∧
      parent' = { entryA with end_ := entryA.end_ - 600 } ∧
      child.start = entryA.end_ - 600 ∧ child.end_ = entryA.end_ ∧
      child.task = entryA.task ∧
      child.text = (if ("foo" : String) = "" ∨ ("foo" : String) = "..." then entryA.text
        else "foo") ∧
      child.id ∉ [entryA, entryB].map Entry.id ∧
      ∃ k, 1 ≤ k ∧ child.id = entryA.id + k ∧
        ∀ j, 1 ≤ j → j < k → (entryA.id + j) ∈ [entryA, entryB].map Entry.id :=
  (split_entry_correct [entryA, entryB] entryA 600 "foo").2 (by decide)

/-! ## C9: alias generation termination and freshness -/

/-- Claim C9: whenever the occupied aliases leave at least one of the 676
two-uppercase-letter slots unused, alias generation (seeded anywhere,
regenerating with incremented seed on collision) terminates within 676
probes and produces an alias not already occupied. -/
theorem gen_alias_never_collides (occupied : List String) (seed : Nat)
    (h : ∃ a ∈ allAliases, a ∉ occupied) :
    ∃ a, gen_alias_fuel occupied seed 676 = some a ∧ a ∉ occupied ∧
      gen_alias occupied seed = a := by
  obtain ⟨a, haAll, hfree⟩ := h
  obtain ⟨j, hjr, hja⟩ := List.mem_map.mp haAll
  rw [List.mem_range] at hjr
  have hi : (j + 676 - seed % 676) % 676 < 676 := Nat.mod_lt _ (by omega)
  have hgen : Alias.gen (seed + (j + 676 - seed % 676) % 676) = a := by
    rw [Alias.gen_mod]
    have hmod : (seed + (j + 676 - seed % 676) % 676) % 676 = j := by omega
    rw [hmod]
    exact hja
  obtain ⟨b, hb₁, hb₂⟩ := gen_alias_fuel_spec occupied 676 seed
    ⟨(j + 676 - seed % 676) % 676, hi, hgen ▸ hfree⟩
  exact ⟨b, hb₁, hb₂, by rw [gen_alias, hb₁]; rfl⟩

/-- Witness for C9: with only "AA" occupied and seed 0 the generator
probes once and lands on the free alias "BA". -/
theorem gen_alias_never_collides_witness :
    ∃ a, gen_alias_fuel ["AA"] 0 676 = some a ∧ a ∉ (["AA"] : List String) ∧
      gen_alias ["AA"] 0 = a :=
  gen_alias_never_collides ["AA"] 0 (by decide)

/-! ## C7: weekday date resolution -/

/-- Claim C7 (counterexample): with today a Monday (ordinal 8), the Date
token for "fri" evaluates to ordinal 12 — four days in the FUTURE — so it is
not the most recent occurrence of that weekday on or before today (which
would be ordinal 5). -/
theorem weekday_to_date_not_most_recent :
    weekday_to_date 8 ['f','r','i'] = 12 ∧ pyWeekday 8 = 0 ∧
    pyWeekday 12 = 4 ∧ pyWeekday 5 = 4 ∧ (5 : Int) ≤ 8 ∧
    ¬ weekday_to_date 8 ['f','r','i'] ≤ 8 := by decide

/-- Claim C7 (amended): the Date token's weekday form evaluates to the
occurrence of that weekday within today's Monday-based week — equivalently
`(today - today.weekday()) + index(weekday)` — which is the most recent
occurrence (including today) only when the target index does not exceed
today's weekday index, and lies in the future otherwise; the
"last <weekday>" form evaluates to exactly seven days before that date. -/
theorem date_weekday_eval_correct (wd : List Char) (h : wd ∈ weeklist)
    (env : Env) (s : List Char) :
    dateEvaluate env ⟨"week", s, [wd]⟩ =
      .ok (.vdate (weekday_to_date env.todayOrdinal wd)) ∧
    dateEvaluate env ⟨"lastweek", s, [wd]⟩ =
      .ok (.vdate (weekday_to_date env.todayOrdinal wd - 7)) ∧
    weekday_to_date env.todayOrdinal wd =
      (env.todayOrdinal - pyWeekday env.todayOrdinal) + (weeklist.indexOf wd : Nat) ∧
    pyWeekday (weekday_to_date env.todayOrdinal wd) = (weeklist.indexOf wd : Nat) ∧
    (((weeklist.indexOf wd : Nat) : Int) ≤ pyWeekday env.todayOrdinal →
      weekday_to_date env.todayOrdinal wd ≤ env.todayOrdinal ∧
      env.todayOrdinal - 7 < weekday_to_date env.todayOrdinal wd) ∧
    (pyWeekday env.todayOrdinal < ((weeklist.indexOf wd : Nat) : Int) →
      env.todayOrdinal < weekday_to_date env.todayOrdinal wd) := by
  have hidx : weeklist.indexOf wd < 7 := by
    fin_cases h <;> decide
  refine ⟨rfl, rfl, ?_, ?_, ?_, ?_⟩ <;>
    · unfold weekday_to_date pyWeekday
      omega

/-- Witness for C7's amended theorem at "fri" with today a Monday. -/
theorem date_weekday_eval_correct_witness :
    dateEvaluate env0 ⟨"week", ['f','r','i'], [['f','r','i']]⟩ =
      .ok (.vdate (weekday_to_date env0.todayOrdinal ['f','r','i'])) ∧
    pyWeekday (weekday_to_date env0.todayOrdinal ['f','r','i']) =
      (weeklist.indexOf ['f','r','i'] : Nat) :=
  ⟨(date_weekday_eval_correct ['f','r','i'] (by decide) env0 ['f','r','i']).1,
   (date_weekday_eval_correct ['f','r','i'] (by decide) env0 ['f','r','i']).2.2.2.1⟩

/-! ## Decimal representation helper lemmas -/

theorem digitChar_isDigit {d : Nat} (h : d < 10) : (digitChar d).isDigit = true := by
  interval_cases d <;> decide

theorem digitChar_toNat {d : Nat} (h : d < 10) : (digitChar d).toNat - 48 = d := by
  interval_cases d <;> decide

theorem natToCharsAux_eq (n : Nat) : ∀ f₁ f₂, n < f₁ → n < f₂ →
    natToCharsAux f₁ n = natToCharsAux f₂ n := by
  induction n using Nat.strong_induction_on with
  | _ n ih =>
      intro f₁ f₂ h₁ h₂
      cases f₁ with
      | zero => omega
      | succ f₁ =>
          cases f₂ with
          | zero => omega
          | succ f₂ =>
              unfold natToCharsAux
              by_cases h : n < 10
              · rw [if_pos h, if_pos h]
              · rw [if_neg h, if_neg h,
                  ih (n / 10) (by omega) f₁ f₂ (by omega) (by omega)]

theorem natToChars_unfold (n : Nat) :
    natToChars n = if n < 10 then [digitChar n]
      else natToChars (n / 10) ++ [digitChar (n % 10)] := by
  unfold natToChars
  by_cases h : n < 10
  · rw [if_pos h]
    unfold natToCharsAux
    rw [if_pos h]
  · rw [if_neg h]
    conv_lhs => unfold natToCharsAux
    rw [if_neg h, natToCharsAux_eq (n / 10) n (n / 10 + 1) (by omega) (by omega)]

theorem natToChars_all_digits (n : Nat) : ∀ c ∈ natToChars n, c.isDigit = true := by
  induction n using Nat.strong_induction_on with
  | _ n ih =>
      intro c hc
      rw [natToChars_unfold] at hc
      by_cases h : n < 10
      · rw [if_pos h] at hc
        rw [List.mem_singleton.mp hc]
        exact digitChar_isDigit h
      · rw [if_neg h] at hc
        rcases List.mem_append.mp hc with hc' | hc'
        · exact ih (n / 10) (by omega) c hc'
        · rw [List.mem_singleton.mp hc']
          exact digitChar_isDigit (by omega)

theorem natToChars_ne_nil (n : Nat) : natToChars n ≠ [] := by
  rw [natToChars_unfold]
  by_cases h : n < 10
  · rw [if_pos h]; simp
  · rw [if_neg h]; simp

theorem charsToNat_natToChars (n : Nat) : charsToNat (natToChars n) = n := by
  induction n using Nat.strong_induction_on with
  | _ n ih =>
      rw [natToChars_unfold]
      by_cases h : n < 10
      · rw [if_pos h]
        unfold charsToNat
        simp only [List.foldl_cons, List.foldl_nil]
        rw [Nat.mul_zero, Nat.zero_add, digitChar_toNat h]
      · rw [if_neg h]
        unfold charsToNat at *
        rw [List.foldl_append]
        simp only [List.foldl_cons, List.foldl_nil]
        rw [ih (n / 10) (by omega), digitChar_toNat (by omega)]
        omega

theorem takeWhile_digits_append (l rest : List Char)
    (hl : ∀ c ∈ l, c.isDigit = true)
    (hrest : ∀ c cs, rest = c :: cs → c.isDigit = false) :
    (l ++ rest).takeWhile Char.isDigit = l := by
  induction l with
  | nil =>
      cases hr : rest with
      | nil => simp
      | cons c cs =>
          simp only [List.nil_append]
          rw [List.takeWhile_cons_of_neg (by simp [hrest c cs hr])]
  | cons x xs ih =>
      simp only [List.cons_append]
      rw [List.takeWhile_cons_of_pos (hl x (List.mem_cons_self x xs)), ih
        (fun c hc => hl c (List.mem_cons_of_mem x hc))]

theorem digitsRun_append (l rest : List Char)
    (hl : ∀ c ∈ l, c.isDigit = true) (hne : l ≠ [])
    (hrest : ∀ c cs, rest = c :: cs → c.isDigit = false) :
    digitsRun (l ++ rest) = some (l, rest) := by
  unfold digitsRun
  rw [takeWhile_digits_append l rest hl hrest]
  rw [if_neg (by simpa [List.isEmpty_iff] using hne)]
  rw [List.drop_left]

theorem digitsRun_natToChars (n : Nat) (rest : List Char)
    (hrest : ∀ c cs, rest = c :: cs → c.isDigit = false) :
    digitsRun (natToChars n ++ rest) = some (natToChars n, rest) :=
  digitsRun_append _ _ (natToChars_all_digits n) (natToChars_ne_nil n) hrest

/-! ## Span token parse lemmas -/

theorem parseDigitsSuffix_natToChars (name : String) (suffix : Char) (n : Nat)
    (c : Char) (cs : List Char) (hc : c.isDigit = false) :
    parseDigitsSuffix name suffix (natToChars n ++ (c :: cs)) =
      (if c = suffix then some ⟨name, natToChars n ++ [c], [natToChars n]⟩
       else none) := by
  unfold parseDigitsSuffix
  have hrun := digitsRun_natToChars n (c :: cs) (fun c2 cs2 h => by
    injection h with h₁ _
    exact h₁ ▸ hc)
  by_cases h : c = suffix
  · subst h
    simp [hrun]
  · simp [hrun, h]

theorem parseDigitsSuffix_bare (name : String) (suffix : Char) (n : Nat) :
    parseDigitsSuffix name suffix (natToChars n) = none := by
  unfold parseDigitsSuffix
  have h0 : natToChars n ++ ([] : List Char) = natToChars n := by simp
  have hrun := digitsRun_natToChars n [] (fun c cs h => by simp at h)
  rw [h0] at hrun
  simp [hrun]

theorem parseHourMin_sep (nh nm : Nat) (sep : Char)
    (hsep : sep = '-' ∨ sep = ' ') :
    parseHourMin (natToChars nh ++ ('h' :: sep :: (natToChars nm ++ ['m']))) =
      some ⟨"hourmin", natToChars nh ++ ('h' :: sep :: (natToChars nm ++ ['m'])),
        [natToChars nh, natToChars nm]⟩ := by
  unfold parseHourMin
  have hrun1 := digitsRun_natToChars nh ('h' :: sep :: (natToChars nm ++ ['m']))
    (fun c cs h => by injection h with h₁ _; rw [← h₁]; rfl)
  have hrunM := digitsRun_natToChars nm ['m']
    (fun c cs h => by injection h with h₁ _; rw [← h₁]; rfl)
  simp only [List.cons_append, List.append_assoc] at hrun1 hrunM ⊢
  simp [hrun1, hrunM, hsep]

theorem parseHourMin_nosep (nh nm : Nat) :
    parseHourMin (natToChars nh ++ ('h' :: (natToChars nm ++ ['m']))) =
      some ⟨"hourmin", natToChars nh ++ ('h' :: (natToChars nm ++ ['m'])),
        [natToChars nh, natToChars nm]⟩ := by
  unfold parseHourMin
  have hrun1 := digitsRun_natToChars nh ('h' :: (natToChars nm ++ ['m']))
    (fun c cs h => by injection h with h₁ _; rw [← h₁]; rfl)
  have hrunM := digitsRun_natToChars nm ['m']
    (fun c cs h => by injection h with h₁ _; rw [← h₁]; rfl)
  cases hm : natToChars nm with
  | nil => exact absurd hm (natToChars_ne_nil nm)
  | cons m₀ mrest =>
      have hm₀ : m₀.isDigit = true :=
        natToChars_all_digits nm m₀ (by rw [hm]; exact List.mem_cons_self _ _)
      have hd : ¬ m₀ = '-' := fun h => by rw [h] at hm₀; simp at hm₀
      have hsp : ¬ m₀ = ' ' := fun h => by rw [h] at hm₀; simp at hm₀
      rw [hm] at hrun1 hrunM
      simp only [List.cons_append, List.append_assoc] at hrun1 hrunM ⊢
      simp [hrun1, hrunM, hd, hsp]

theorem parseHourMin_hours_only (nh : Nat) :
    parseHourMin (natToChars nh ++ ['h']) = none := by
  unfold parseHourMin
  have hrun := digitsRun_natToChars nh ['h']
    (fun c cs h => by injection h with h₁ _; rw [← h₁]; rfl)
  simp [hrun]

theorem parseHourMin_wrong_suffix (nh : Nat) (c : Char) (cs : List Char)
    (hc : c.isDigit = false) (hch : c ≠ 'h') :
    parseHourMin (natToChars nh ++ (c :: cs)) = none := by
  unfold parseHourMin
  rw [digitsRun_natToChars nh (c :: cs) (fun c2 cs2 h => by
    injection h with h₁ _
    exact h₁ ▸ hc)]
  cases c with
  | mk v hv =>
      simp only []
      split
      · rename_i heq
        injection heq with h1 _
        exact absurd h1 hch
      · rfl

theorem parseHourMin_bare (nh : Nat) :
    parseHourMin (natToChars nh) = none := by
  unfold parseHourMin
  have h0 : natToChars nh ++ ([] : List Char) = natToChars nh := by simp
  rw [← h0, digitsRun_natToChars nh [] (fun c cs h => by simp at h)]

theorem seconds_to_duration_canonical (N M : Nat) (hN : 1 ≤ N) (hM1 : 1 ≤ M)
    (hM : M < 60) :
    seconds_to_duration ((N : Int) * 3600 + (M : Int) * 60) =
      natToChars N ++ ('h' :: ' ' :: (natToChars M ++ ['m'])) := by
  have htot : ((N : Int) * 3600 + (M : Int) * 60) = ((N * 3600 + M * 60 : Nat) : Int) := by
    push_cast
    ring
  rw [htot]
  unfold seconds_to_duration
  have h0 : ¬ ((N * 3600 + M * 60 : Nat) : Int) = 0 := by omega
  have hneg : ¬ ((N * 3600 + M * 60 : Nat) : Int) < 0 := by omega
  have habs : ((N * 3600 + M * 60 : Nat) : Int).natAbs = N * 3600 + M * 60 := by omega
  have hmin : (N * 3600 + M * 60) / 60 = N * 60 + M := by omega
  have hhours : (N * 60 + M) / 60 = N := by omega
  have hmins : (N * 60 + M) % 60 = M := by omega
  have hNne : ¬ N = 0 := by omega
  have hMne : ¬ M = 0 := by omega
  simp only [if_neg h0, habs, hmin, hhours, hmins]
  simp [hNne, hMne, hneg, joinWith]
  omega

/-! ## C8: span token evaluation and duration round-trip -/

/-- Claim C8: for all nonnegative N and M the Span token evaluates `Nd` to N
days, `NhMm` and `Nh-Mm` to N hours plus M minutes, `Nh` to N hours, and
both `Nm` and bare `N` to N minutes; re-serializing an evaluated duration to
the `"Xh Ym"` form is stable for canonical inputs (hours and minutes both
nonzero, minutes below 60), and a 90-minute duration serializes to
`"1h 30m"`. -/
theorem span_token_correct (N M : Nat) :
    parseSpan (natToChars N ++ ['d']) =
      some ⟨"days", natToChars N ++ ['d'], [natToChars N]⟩ ∧
    spanEvaluate ⟨"days", natToChars N ++ ['d'], [natToChars N]⟩ =
      .ok (.vspan ((N : Int) * 86400)) ∧
    parseSpan (natToChars N ++ ('h' :: (natToChars M ++ ['m']))) =
      some ⟨"hourmin", natToChars N ++ ('h' :: (natToChars M ++ ['m'])),
        [natToChars N, natToChars M]⟩ ∧
    parseSpan (natToChars N ++ ('h' :: '-' :: (natToChars M ++ ['m']))) =
      some ⟨"hourmin", natToChars N ++ ('h' :: '-' :: (natToChars M ++ ['m'])),
        [natToChars N, natToChars M]⟩ ∧
    spanEvaluate ⟨"hourmin", natToChars N ++ ('h' :: (natToChars M ++ ['m'])),
        [natToChars N, natToChars M]⟩ =
      .ok (.vspan ((N : Int) * 3600 + (M : Int) * 60)) ∧
    parseSpan (natToChars N ++ ['h']) =
      some ⟨"hours", natToChars N ++ ['h'], [natToChars N]⟩ ∧
    spanEvaluate ⟨"hours", natToChars N ++ ['h'], [natToChars N]⟩ =
      .ok (.vspan ((N : Int) * 3600)) ∧
    parseSpan (natToChars N ++ ['m']) =
      some ⟨"minutes", natToChars N ++ ['m'], [natToChars N]⟩ ∧
    spanEvaluate ⟨"minutes", natToChars N ++ ['m'], [natToChars N]⟩ =
      .ok (.vspan ((N : Int) * 60)) ∧
    parseSpan (natToChars N) = some ⟨"number", natToChars N, [natToChars N]⟩ ∧
    spanEvaluate ⟨"number", natToChars N, [natToChars N]⟩ =
      .ok (.vspan ((N : Int) * 60)) ∧
    (1 ≤ N → 1 ≤ M → M < 60 →
      seconds_to_duration ((N : Int) * 3600 + (M : Int) * 60) =
        natToChars N ++ ('h' :: ' ' :: (natToChars M ++ ['m']))) ∧
    seconds_to_duration ((90 : Int) * 60) = ['1', 'h', ' ', '3', '0', 'm'] := by
  refine ⟨?_, ?_, ?_, ?_, ?_, ?_, ?_, ?_, ?_, ?_, ?_,
    seconds_to_duration_canonical N M, by decide⟩
  · have hdays := parseDigitsSuffix_natToChars "days" 'd' N 'd' [] (by decide)
    simp only [if_pos rfl] at hdays
    unfold parseSpan
    simp [hdays]
  · simp [spanEvaluate, charsToNat_natToChars]
  · have h1 := parseDigitsSuffix_natToChars "days" 'd' N 'h'
      (natToChars M ++ ['m']) (by decide)
    rw [if_neg (by decide)] at h1
    have h2 := parseHourMin_nosep N M
    unfold parseSpan
    simp [h1, h2]
  · have h1 := parseDigitsSuffix_natToChars "days" 'd' N 'h'
      ('-' :: (natToChars M ++ ['m'])) (by decide)
    rw [if_neg (by decide)] at h1
    have h2 := parseHourMin_sep N M '-' (Or.inl rfl)
    unfold parseSpan
    simp [h1, h2]
  · simp [spanEvaluate, charsToNat_natToChars]
  · have h1 := parseDigitsSuffix_natToChars "days" 'd' N 'h' [] (by decide)
    rw [if_neg (by decide)] at h1
    have h2 := parseHourMin_hours_only N
    have h3 := parseDigitsSuffix_natToChars "hours" 'h' N 'h' [] (by decide)
    simp only [if_pos rfl] at h3
    unfold parseSpan
    simp [h1, h2, h3]
  · simp [spanEvaluate, charsToNat_natToChars]
  · have h1 := parseDigitsSuffix_natToChars "days" 'd' N 'm' [] (by decide)
    rw [if_neg (by decide)] at h1
    have h2 := parseHourMin_wrong_suffix N 'm' [] (by decide) (by decide)
    have h3 := parseDigitsSuffix_natToChars "hours" 'h' N 'm' [] (by decide)
    rw [if_neg (by decide)] at h3
    have h4 := parseDigitsSuffix_natToChars "minutes" 'm' N 'm' [] (by decide)
    simp only [if_pos rfl] at h4
    unfold parseSpan
    simp [h1, h2, h3, h4]
  · simp [spanEvaluate, charsToNat_natToChars]
  · have h1 := parseDigitsSuffix_bare "days" 'd' N
    have h2 := parseHourMin_bare N
    have h3 := parseDigitsSuffix_bare "hours" 'h' N
    have h4 := parseDigitsSuffix_bare "minutes" 'm' N
    have h0 : natToChars N ++ ([] : List Char) = natToChars N := by simp
    have hrun := digitsRun_natToChars N [] (fun c cs h => by simp at h)
    rw [h0] at hrun
    unfold parseSpan
    simp [h1, h2, h3, h4, hrun]
  · simp [spanEvaluate, charsToNat_natToChars]

/-- Witness for C8 at N = 1, M = 30: "1h 30m" evaluates to 5400 seconds and
serializes back to "1h 30m". -/
theorem span_token_correct_witness :
    spanEvaluate ⟨"hourmin", natToChars 1 ++ ('h' :: (natToChars 30 ++ ['m'])),
        [natToChars 1, natToChars 30]⟩ =
      .ok (.vspan ((1 : Int) * 3600 + (30 : Int) * 60)) ∧
    seconds_to_duration ((1 : Int) * 3600 + (30 : Int) * 60) =
      natToChars 1 ++ ('h' :: ' ' :: (natToChars 30 ++ ['m'])) :=
  ⟨(span_token_correct 1 30).2.2.2.2.1,
   (span_token_correct 1 30).2.2.2.2.2.2.2.2.2.2.2.1 (by decide) (by decide) (by decide)⟩

/-! ## Dispatcher helper lemmas -/

theorem Command_parse_eq (env : Env) (cmd : Command) (line : List Char)
    (h : isBlank line = false) :
    Command.parse env cmd line =
      (match parseGo line cmd.pattern 0 [] with
       | .inl marker => .failAt marker
       | .inr toks =>
           match toks.mapM (fun km => tokenEvaluate env km.1 km.2) with
           | .error e => .errored e
           | .ok args => .invoked args) := by
  unfold Command.parse
  rw [if_neg (by simp [h])]

theorem Command_parse_ne_blank (env : Env) (cmd : Command) (line : List Char)
    (h : isBlank line = false) : Command.parse env cmd line ≠ .blank := by
  rw [Command_parse_eq env cmd line h]
  cases parseGo line cmd.pattern 0 [] with
  | inl marker => simp
  | inr toks =>
      simp only []
      cases toks.mapM (fun km => tokenEvaluate env km.1 km.2) with
      | error e => simp
      | ok args => simp

theorem processGo_spec (env : Env) (line : List Char) (h : isBlank line = false) :
    ∀ (cmds : List Command) (maxP : Nat) (name : String) (args : List Value),
      processGo env line cmds maxP = .handled name args ↔
        ∃ c, cmds.find? (fun c => fullMatch env c line) = some c ∧
          name = c.name ∧ Command.parse env c line = .invoked args := by
  intro cmds
  induction cmds with
  | nil =>
      intro maxP name args
      constructor
      · intro hp
        unfold processGo at hp
        by_cases h0 : maxP = 0
        · rw [if_pos h0] at hp; cases hp
        · rw [if_neg h0] at hp; cases hp
      · rintro ⟨c, hc, -⟩
        simp at hc
  | cons c cs ih =>
      intro maxP name args
      cases hp : Command.parse env c line with
      | blank => exact absurd hp (Command_parse_ne_blank env c line h)
      | failAt m =>
          have hfm : fullMatch env c line = false := by
            unfold fullMatch
            rw [hp]
          simp only [processGo, hp]
          rw [List.find?_cons_of_neg _ (by simp [hfm])]
          exact ih (max maxP m) name args
      | errored e =>
          have hfm : fullMatch env c line = true := by
            unfold fullMatch
            rw [hp]
          simp only [processGo, hp]
          constructor
          · intro hh; cases hh
          · rintro ⟨c', hc', hn, hinv⟩
            rw [List.find?_cons_of_pos _ (by simp [hfm])] at hc'
            injection hc' with hcc
            subst hcc
            rw [hp] at hinv
            cases hinv
      | invoked args' =>
          have hfm : fullMatch env c line = true := by
            unfold fullMatch
            rw [hp]
          simp only [processGo, hp]
          constructor
          · intro hh
            injection hh with h₁ h₂
            exact ⟨c, List.find?_cons_of_pos _ (by simp [hfm]), h₁.symm, by rw [hp, h₂]⟩
          · rintro ⟨c', hc', hn, hinv⟩
            rw [List.find?_cons_of_pos _ (by simp [hfm])] at hc'
            injection hc' with hcc
            subst hcc
            rw [hp] at hinv
            injection hinv with h₂
            rw [hn, h₂]

theorem processGo_stops (env : Env) (line : List Char) (h : isBlank line = false) :
    ∀ (cs ds : List Command) (maxP : Nat), (∃ c ∈ cs, fullMatch env c line = true) →
      processGo env line (cs ++ ds) maxP = processGo env line cs maxP := by
  intro cs
  induction cs with
  | nil =>
      rintro ds maxP ⟨c, hc, -⟩
      simp at hc
  | cons c cs ih =>
      rintro ds maxP ⟨c', hc', hfm⟩
      cases hp : Command.parse env c line with
      | blank => exact absurd hp (Command_parse_ne_blank env c line h)
      | failAt m =>
          simp only [List.cons_append, processGo, hp]
          refine ih ds (max maxP m) ⟨c', ?_, hfm⟩
          rcases List.mem_cons.mp hc' with rfl | hmem
          · exact absurd hfm (by unfold fullMatch; rw [hp]; simp)
          · exact hmem
      | errored e => simp only [List.cons_append, processGo, hp]
      | invoked args => simp only [List.cons_append, processGo, hp]

/-! ## C5: one command executes per line, in registration order -/

/-- Claim C5: for a non-blank input line, the dispatcher runs the handler
of the first registered pattern that consumes the whole line: a handled
outcome names exactly the first fully-matching command (with its evaluated
arguments), and once some pattern in a prefix of the registration list
fully matches, any later-registered commands are irrelevant to the result —
at most one handler is invoked per line. -/
theorem dispatch_first_full_match (env : Env) (line : List Char)
    (h : isBlank line = false) :
    (∀ (name : String) (args : List Value),
      App.process env commands line = .handled name args ↔
        ∃ c, commands.find? (fun c => fullMatch env c line) = some c ∧
          name = c.name ∧ Command.parse env c line = .invoked args) ∧
    (∀ (cs ds : List Command), (∃ c ∈ cs, fullMatch env c line = true) →
      App.process env (cs ++ ds) line = App.process env cs line) :=
  ⟨fun name args => processGo_spec env line h commands 0 name args,
   fun cs ds hex => processGo_stops env line h cs ds 0 hex⟩

/-- Witness for C5: the line "help" runs exactly the help handler, which is
the first (and only) fully-matching registered pattern. -/
theorem dispatch_first_full_match_witness :
    App.process env0 commands ("help".data) = .handled "show_help" [] := by
  exact ((dispatch_first_full_match env0 ("help".data) (by decide)).1 "show_help" []).mpr
    ⟨⟨"show_help", [.lit "help"]⟩, by decide, rfl, by decide⟩

/-! ## C6: unrecognized input reporting -/

/-- Claim C6 (counterexample): on the input "bogus command" the maximum
failure marker is 2, not 0 — the two-letter alias token consumes "bo"
before the surrounding patterns fail — so the dispatcher reports the
invalid-syntax caret message, not the invalid-command message. -/
theorem bogus_command_reports_syntax :
    App.process env0 commands ("bogus command".data) = .invalidSyntax 2 ∧
    App.process env0 commands ("bogus command".data) ≠ .invalidCommand := by
  constructor
  · decide
  · decide

/-- Claim C6 (amended): on "bogus command" the maximum failure marker over
all registered patterns is 2 (the alias token matches "bo"), so "invalid
syntax" with a caret at column 2 is reported for any evaluation
environment; "invalid command" is reported exactly when the maximum marker
is 0, as for the input "?", where no pattern matches any leading
characters. -/
theorem bogus_command_amended :
    (∀ env : Env, App.process env commands ("bogus command".data) = .invalidSyntax 2) ∧
    (∀ env : Env, App.process env commands ("?".data) = .invalidCommand) :=
  ⟨fun _ => rfl, fun _ => rfl⟩

/-! ## C1: fuse interval arithmetic -/

/-- Claim C1 (counterexample): fusing entry A (09:00–09:30, task T) into
entry B (09:45–10:00, task T) yields end 09:45 (seconds 35100), not the
claimed 10:30 (seconds 37800): the code recomputes the acceptor's start to
the minimum before adding the combined duration, so the end is based on the
new start, not the acceptor's pre-fuse start. -/
theorem fuse_end_not_from_original_start :
    fuse_entry_right [entryA, entryB] "AA" "BB" = .ok [fusedAB] ∧
    find_entry [fusedAB] "BB" = some fusedAB ∧
    fusedAB.end_ = 35100 ∧
    entryB.start + (entryB.span + entryA.span) = 37800 ∧
    (35100 : Int) ≠ 37800 := by
  refine ⟨rfl, rfl, rfl, by decide, by decide⟩

/-- Claim C1 (amended): fusing donor into acceptor (distinct aliases, same
task) yields one entry under the acceptor's alias whose start is
`min(donor.start, acceptor.start)` and whose end is that minimum plus the
combined duration `acceptor.span + donor.span`; the donor is deleted. In
the example, A (09:00–09:30) fused into B (09:45–10:00) gives start 09:00
and end 09:45. -/
theorem fuse_entry_right_correct (reg : List Entry) (dA aA : String)
    (donor acceptor : Entry)
    (hd : find_entry reg dA = some donor)
    (ha : find_entry reg aA = some acceptor)
    (hne : dA ≠ aA)
    (htask : donor.task.id = acceptor.task.id) :
    ∃ reg', fuse_entry_right reg dA aA = .ok reg' ∧
      find_entry reg' aA =
        some { acceptor with
                start := min donor.start acceptor.start,
                end_ := min donor.start acceptor.start + (acceptor.span + donor.span) } ∧
      find_entry reg' dA = none := by
  have hbeq : (donor.task == acceptor.task) = true := by
    simp [BEq.beq, htask]
  refine ⟨delete_entry
      (update_entry reg aA
        { acceptor with
            start := min donor.start acceptor.start,
            end_ := min donor.start acceptor.start + (acceptor.span + donor.span) })
      dA, ?_, ?_, ?_⟩
  · unfold fuse_entry_right
    rw [hd, ha]
    simp [hbeq]
  · rw [find_entry_delete_other _ (Ne.symm hne)]
    exact find_entry_update_self ha _ (by simpa using find_entry_eq_some_alias ha)
  · exact find_entry_delete_self _ _

/-- Witness for C1's amended theorem at the example entries. -/
theorem fuse_entry_right_correct_witness :
    ∃ reg', fuse_entry_right [entryA, entryB] "AA" "BB" = .ok reg' ∧
      find_entry reg' "BB" =
        some { entryB with
                start := min entryA.start entryB.start,
                end_ := min entryA.start entryB.start + (entryB.span + entryA.span) } ∧
      find_entry reg' "AA" = none :=
  fuse_entry_right_correct [entryA, entryB] "AA" "BB" entryA entryB
    (by decide) (by decide) (by decide) (by decide)

/-! ## C10: self-fuse deletes the combined entry -/

/-- Claim C10: fusing an entry into itself is not rejected — it passes the
same-task check, stores the entry with its end moved to start plus twice
the original span, and then deletes that very alias, so the combined entry
is gone from the registry. -/
theorem fuse_self_deletes_entry (reg : List Entry) (a : String) (e : Entry)
    (h : find_entry reg a = some e) :
    fuse_entry_right reg a a =
      .ok (delete_entry
            (update_entry reg a { e with start := e.start, end_ := e.start + (e.span + e.span) })
            a) ∧
    ∀ reg', fuse_entry_right reg a a = .ok reg' → find_entry reg' a = none := by
  have heq : fuse_entry_right reg a a =
      .ok (delete_entry
            (update_entry reg a { e with start := e.start, end_ := e.start + (e.span + e.span) })
            a) := by
    unfold fuse_entry_right
    rw [h]
    simp [BEq.beq, min_self]
  refine ⟨heq, ?_⟩
  intro reg' hok
  rw [heq] at hok
  injection hok with h2
  rw [← h2]
  exact find_entry_delete_self _ _

/-- Witness for C10 at a concrete registry. -/
theorem fuse_self_deletes_entry_witness :
    fuse_entry_right [entryA, entryB] "AA" "AA" =
      .ok (delete_entry
            (update_entry [entryA, entryB] "AA"
              { entryA with
                  start := entryA.start,
                  end_ := entryA.start + (entryA.span + entryA.span) })
            "AA") ∧
    ∀ reg', fuse_entry_right [entryA, entryB] "AA" "AA" = .ok reg' →
      find_entry reg' "AA" = none :=
  fuse_self_deletes_entry [entryA, entryB] "AA" entryA (by decide)

end Trackertools
